import Mathlib

/-!
Pooling allocator and owning container of `main.cpp`.

A shallow embedding of `MyAllocator<T, BlockSize>` and `MyContainer<T, Allocator>`.

Modelling conventions.

* An address (`T*`, `void*`) is a natural number.
* The system allocator (`::operator new` / `::operator delete`) is an arbitrary
  deterministic function of the history of system calls and of the requested
  byte count; every call is recorded in a chronological log, so that "how many
  requests were made and of which size" is a statement about the log.
* `std::vector<pointer>` is a list (`push_back` appends, `back` is the last
  entry, `pop_back` drops it); the storage a vector obtains for its own buffer
  is not part of the model, except in the namespace `WithStorage`, which
  repeats the allocator with that storage modelled and is used where a claim
  is about which calls can fail.
* `size_t` arithmetic is arithmetic on naturals reduced modulo `2 ^ w`, where
  `w` is the width of `size_t`.
* The template parameters of `MyAllocator<T, BlockSize>` are indices of the
  Lean type: `T` is represented by `sizeof(T)`, the only property of `T` the
  allocator uses.
-/

namespace Lab4

/-- An address handed out by the system allocator. -/
abbrev Addr := Nat

/-- One call of the system allocator: `::operator new(bytes)` together with its
answer (`none` when it throws `std::bad_alloc`), or `::operator delete(p)`. -/
inductive SysEvent where
  | new (bytes : Nat) (res : Option Addr)
  | delete (p : Addr)
  deriving DecidableEq, Repr

/-- The chronological log of system-allocator calls. -/
abbrev Heap := List SysEvent

/-- The system allocator: given the history and the byte count, the address it
returns, or `none` when it cannot satisfy the request. -/
abbrev SysAlloc := Heap → Nat → Option Addr

/-- The call `::operator new(bytes)`: the answer and the extended log. -/
def opNew (sys : SysAlloc) (h : Heap) (bytes : Nat) : Option Addr × Heap :=
  (sys h bytes, h ++ [SysEvent.new bytes (sys h bytes)])

/-- The call `::operator delete(p)`. -/
def opDelete (h : Heap) (p : Addr) : Heap :=
  h ++ [SysEvent.delete p]

/-- How a call that may throw or run into undefined behaviour ends. -/
inductive Result (α : Type) where
  | ok (v : α)
  | bad_alloc
  | undefined
  deriving DecidableEq, Repr

/-- The class `MyAllocator<T, BlockSize>`; its only data member is `free_blocks`. -/
structure MyAllocator (sizeofT : Nat) (BlockSize : Nat) where
  free_blocks : List Addr
  deriving DecidableEq, Repr

namespace MyAllocator

/-- The defaulted default constructor: an empty free list. -/
def default (sizeofT BlockSize : Nat) : MyAllocator sizeofT BlockSize :=
  ⟨[]⟩

/-- The converting constructor `MyAllocator(const MyAllocator<U, BlockSize>&)`,
whose body is empty: the free list is default-initialised. -/
def convert {sizeofU BlockSize : Nat} (sizeofT : Nat)
    (_other : MyAllocator sizeofU BlockSize) : MyAllocator sizeofT BlockSize :=
  ⟨[]⟩

/-- The loop of `expand` with `k` iterations left. The flag is `false` when an
`::operator new` threw; the chunks pushed before that stay in the free list. -/
def expandLoop {sizeofT BlockSize : Nat} (sys : SysAlloc) :
    Nat → MyAllocator sizeofT BlockSize → Heap → Bool × MyAllocator sizeofT BlockSize × Heap
  | 0, a, h => (true, a, h)
  | k + 1, a, h =>
    match opNew sys h sizeofT with
    | (none, h1) => (false, a, h1)
    | (some p, h1) => expandLoop sys k ⟨a.free_blocks ++ [p]⟩ h1

/-- The member `expand()`: `BlockSize` iterations, each pushing one chunk of
`sizeof(T)` bytes obtained from `::operator new`. -/
def expand {sizeofT BlockSize : Nat} (sys : SysAlloc)
    (a : MyAllocator sizeofT BlockSize) (h : Heap) :
    Bool × MyAllocator sizeofT BlockSize × Heap :=
  expandLoop sys BlockSize a h

/-- The member `allocate(n)`. The product `n * sizeof(T)` is computed in
`size_t`; `back()` on an empty vector is undefined behaviour. -/
def allocate {sizeofT BlockSize : Nat} (w : Nat) (sys : SysAlloc)
    (a : MyAllocator sizeofT BlockSize) (h : Heap) (n : Nat) :
    Result Addr × MyAllocator sizeofT BlockSize × Heap :=
  if n > BlockSize then
    match opNew sys h ((n * sizeofT) % 2 ^ w) with
    | (some p, h1) => (Result.ok p, a, h1)
    | (none, h1) => (Result.bad_alloc, a, h1)
  else
    match (if a.free_blocks.isEmpty then expand sys a h else (true, a, h)) with
    | (false, a1, h1) => (Result.bad_alloc, a1, h1)
    | (true, a1, h1) =>
      match a1.free_blocks.getLast? with
      | none => (Result.undefined, a1, h1)
      | some p => (Result.ok p, ⟨a1.free_blocks.dropLast⟩, h1)

/-- The member `deallocate(p, n)`. -/
def deallocate {sizeofT BlockSize : Nat}
    (a : MyAllocator sizeofT BlockSize) (h : Heap) (p : Addr) (n : Nat) :
    MyAllocator sizeofT BlockSize × Heap :=
  if n > BlockSize then (a, opDelete h p) else (⟨a.free_blocks ++ [p]⟩, h)

/-- The member `max_size()`, with `std::numeric_limits<size_t>::max() = 2 ^ w - 1`. -/
def max_size {sizeofT BlockSize : Nat} (w : Nat) (_a : MyAllocator sizeofT BlockSize) : Nat :=
  min (2 ^ w - 1) ((2 ^ w - 1) / sizeofT)

/-- The free function `operator==` on two allocators of equal `BlockSize`. -/
def eq {sizeofT sizeofU BlockSize : Nat}
    (_a : MyAllocator sizeofT BlockSize) (_b : MyAllocator sizeofU BlockSize) : Bool :=
  true

/-- The free function `operator!=` on two allocators of equal `BlockSize`. -/
def ne {sizeofT sizeofU BlockSize : Nat}
    (_a : MyAllocator sizeofT BlockSize) (_b : MyAllocator sizeofU BlockSize) : Bool :=
  false

end MyAllocator

/-- One step of the bookkeeping of outstanding blocks. -/
def liveStep (acc : List Addr) : SysEvent → List Addr
  | SysEvent.new _ (some p) => acc ++ [p]
  | SysEvent.new _ none => acc
  | SysEvent.delete p => acc.filter (fun q => q ≠ p)

/-- The addresses that the system allocator has handed out and that have not
been passed to `::operator delete` since, according to the log. -/
def live (h : Heap) : List Addr :=
  h.foldl liveStep []

/-- The system allocator never returns an address that is still outstanding. -/
def SysFresh (sys : SysAlloc) : Prop :=
  ∀ h bytes p, sys h bytes = some p → p ∉ live h

/-- The system allocator returns non-null addresses representable in `w` bits. -/
def SysInRange (w : Nat) (sys : SysAlloc) : Prop :=
  ∀ h bytes p, sys h bytes = some p → 0 < p ∧ p < 2 ^ w

/-- One step of the running maximum of the addresses handed out. -/
def maxStep (m : Nat) : SysEvent → Nat
  | SysEvent.new _ (some p) => max m p
  | _ => m

/-- The largest address the log mentions as the answer of a request. -/
def maxAddr (h : Heap) : Nat :=
  h.foldl maxStep 0

/-- A concrete system allocator used to instantiate the theorems: it answers
with the address after the largest one handed out so far, and fails when the
address space of `w` bits is exhausted. -/
def bumpSys (w : Nat) : SysAlloc :=
  fun h _ => if maxAddr h + 1 < 2 ^ w then some (maxAddr h + 1) else none

/-- The allocator a `MyContainer<T, Allocator>` is instantiated with:
`std::allocator<T>`, the default, or a `MyAllocator<T, BlockSize>`. -/
inductive Allocator (sizeofT : Nat) where
  | std : Allocator sizeofT
  | pool (BlockSize : Nat) (a : MyAllocator sizeofT BlockSize) : Allocator sizeofT

namespace Allocator

/-- The call `std::allocator_traits<Allocator>::allocate(alloc_, n)`. For
`std::allocator<T>` (standard library) it throws when `n * sizeof(T)` is not
representable in `size_t` and otherwise calls `::operator new(n * sizeof(T))`;
for `MyAllocator` it is the member `allocate`. -/
def allocate {sizeofT : Nat} (w : Nat) (sys : SysAlloc) :
    Allocator sizeofT → Heap → Nat → Result Addr × Allocator sizeofT × Heap
  | std, h, n =>
    if n * sizeofT < 2 ^ w then
      match opNew sys h (n * sizeofT) with
      | (some p, h1) => (Result.ok p, std, h1)
      | (none, h1) => (Result.bad_alloc, std, h1)
    else (Result.bad_alloc, std, h)
  | pool B a, h, n =>
    match MyAllocator.allocate w sys a h n with
    | (r, a1, h1) => (r, pool B a1, h1)

/-- The call `std::allocator_traits<Allocator>::deallocate(alloc_, p, n)`. -/
def deallocate {sizeofT : Nat} :
    Allocator sizeofT → Heap → Addr → Nat → Allocator sizeofT × Heap
  | std, h, p, _ => (std, opDelete h p)
  | pool B a, h, p, n =>
    match MyAllocator.deallocate a h p n with
    | (a1, h1) => (pool B a1, h1)

/-- The blocks an allocator instance keeps for reuse. -/
def pooled {sizeofT : Nat} : Allocator sizeofT → List Addr
  | std => []
  | pool _ a => a.free_blocks

end Allocator

/-- The objects stored in memory: the value constructed at an address, if any. -/
abbrev Mem (α : Type) := Addr → Option α

/-- The member `construct(p, value)`: placement-new of a copy of `value` at `p`. -/
def construct {α : Type} (m : Mem α) (p : Addr) (value : α) : Mem α :=
  fun q => if q = p then some value else m q

/-- The part of the machine a container acts on: the system-allocator log and
the objects in memory. -/
structure World (α : Type) where
  heap : Heap
  mem : Mem α

/-- The class `MyContainer<T, Allocator>` with its three data members. -/
structure MyContainer (sizeofT : Nat) where
  alloc_ : Allocator sizeofT
  elements_ : List Addr
  size_ : Nat

namespace MyContainer

/-- The constructor `MyContainer(const allocator_type& alloc)`: copies the
allocator, starts with no elements and `size_ = 0`. -/
def new {sizeofT : Nat} (alloc : Allocator sizeofT) : MyContainer sizeofT :=
  ⟨alloc, [], 0⟩

/-- The member `push_back(value)`; `++size_` is an increment in `size_t`. When
`allocate` throws, nothing after it is executed. -/
def push_back {sizeofT : Nat} {α : Type} (w : Nat) (sys : SysAlloc)
    (c : MyContainer sizeofT) (wd : World α) (value : α) :
    Result Unit × MyContainer sizeofT × World α :=
  match c.alloc_.allocate w sys wd.heap 1 with
  | (Result.ok ptr, al, h1) =>
    (Result.ok (), ⟨al, c.elements_ ++ [ptr], (c.size_ + 1) % 2 ^ w⟩,
      ⟨h1, construct wd.mem ptr value⟩)
  | (Result.bad_alloc, al, h1) =>
    (Result.bad_alloc, ⟨al, c.elements_, c.size_⟩, ⟨h1, wd.mem⟩)
  | (Result.undefined, al, h1) =>
    (Result.undefined, ⟨al, c.elements_, c.size_⟩, ⟨h1, wd.mem⟩)

/-- The member `size()`. -/
def size {sizeofT : Nat} (c : MyContainer sizeofT) : Nat :=
  c.size_

/-- The member `empty()`. -/
def empty {sizeofT : Nat} (c : MyContainer sizeofT) : Bool :=
  c.size_ == 0

/-- The loop of `print()`: for each stored address, the object there is written
to the stream followed by a space; reading an address that holds no object is
undefined behaviour. -/
def printLoop {α : Type} (render : α → String) (m : Mem α) :
    List Addr → String → Result String
  | [], out => Result.ok out
  | p :: ps, out =>
    match m p with
    | none => Result.undefined
    | some v => printLoop render m ps (out ++ render v ++ " ")

/-- The member `print()`: the text written to the stream, which held `out`
before; `render` is `operator<<` for the element type. -/
def print {sizeofT : Nat} {α : Type} (render : α → String)
    (c : MyContainer sizeofT) (m : Mem α) (out : String) : Result String :=
  match printLoop render m c.elements_ out with
  | Result.ok s => Result.ok (s ++ "\n")
  | r => r

/-- A run of `push_back` calls, one per value, in order; `none` when one of
them does not complete. -/
def pushAll {sizeofT : Nat} {α : Type} (w : Nat) (sys : SysAlloc) :
    List α → MyContainer sizeofT → World α → Option (MyContainer sizeofT × World α)
  | [], c, wd => some (c, wd)
  | v :: vs, c, wd =>
    match push_back w sys c wd v with
    | (Result.ok _, c1, wd1) => pushAll w sys vs c1 wd1
    | _ => none

end MyContainer

/-- The addresses `ps` are the answers the system allocator gives to
`ps.length` consecutive successful requests of `bytes` bytes each, made from
the history `h` on with nothing else happening in between. -/
def Answers (sys : SysAlloc) (bytes : Nat) : Heap → List Addr → Prop
  | _, [] => True
  | h, p :: ps => sys h bytes = some p ∧ Answers sys bytes (h ++ [SysEvent.new bytes (some p)]) ps

/-- The log entries of successful requests of `bytes` bytes answered by `ps`. -/
def chunkEvents (bytes : Nat) (ps : List Addr) : Heap :=
  ps.map (fun p => SysEvent.new bytes (some p))

/-- The addresses of `l` are pairwise distinct blocks that are outstanding
according to the log `h`. -/
def Owned (h : Heap) (l : List Addr) : Prop :=
  l.Nodup ∧ ∀ p ∈ l, p ∈ live h

/-- The addresses of `l` are non-null and representable in `w` bits. -/
def AddrsInRange (w : Nat) (l : List Addr) : Prop :=
  ∀ p ∈ l, 0 < p ∧ p < 2 ^ w

/-- The text `print()` is expected to write for the values `vs`: each value
followed by a space, then a newline. -/
def printed {α : Type} (render : α → String) (vs : List α) : String :=
  String.join (vs.map (fun v => render v ++ " ")) ++ "\n"

/-- The text `operator<<` writes for an `int`. -/
def renderInt (v : Int) : String :=
  toString v

/-- The memory in which no object has been constructed. -/
def emptyMem (α : Type) : Mem α :=
  fun _ => none

/-- The product of two `int` values. Signed overflow is undefined behaviour:
the result is `Result.undefined` when it is not representable in 32 bits. -/
def mulInt32 (a b : Int) : Result Int :=
  if -(2 : Int) ^ 31 ≤ a * b ∧ a * b ≤ (2 : Int) ^ 31 - 1 then Result.ok (a * b)
  else Result.undefined

/-- The recursion of `factorial(n)` for `n` the natural number `m`: the call
on `m + 1` tests `n <= 1` and otherwise multiplies `n` by the result of the
call on `n - 1 = m`. -/
def factorialNat : Nat → Result Int
  | 0 => Result.ok 1
  | m + 1 =>
    if ((m : Int) + 1) ≤ 1 then Result.ok 1
    else
      match factorialNat m with
      | Result.ok r => mulInt32 ((m : Int) + 1) r
      | e => e

/-- The function `factorial(n)` on `int`: `1` for `n <= 1`, and
`n * factorial(n - 1)` otherwise, the recursion running over `n` as a natural
number. -/
def factorial (n : Int) : Result Int :=
  if n ≤ 1 then Result.ok 1 else factorialNat n.toNat

/-- The assignment `map[k] = v` on a `std::map<int, int>`, kept as the list of
its pairs in ascending key order: the value of an existing key is replaced, a
new key is inserted at its place. -/
def mapAssign : List (Int × Int) → Int → Int → List (Int × Int)
  | [], k, v => [(k, v)]
  | (k1, v1) :: rest, k, v =>
    if k < k1 then (k, v) :: (k1, v1) :: rest
    else if k = k1 then (k, v) :: rest
    else (k1, v1) :: mapAssign rest k v

/-- The loop `for (int i = 0; i < 10; ++i) map[i] = factorial(i);` of `main`,
over the remaining values of `i`. -/
def fillLoop : List Int → List (Int × Int) → Result (List (Int × Int))
  | [], m => Result.ok m
  | i :: rest, m =>
    match factorial i with
    | Result.ok v => fillLoop rest (mapAssign m i v)
    | Result.bad_alloc => Result.bad_alloc
    | Result.undefined => Result.undefined

/-- The contents of `map2` in `main` after the filling loop, as the pairs seen
by the range-for loop that prints them (ascending key order). -/
def mainMap : Result (List (Int × Int)) :=
  fillLoop [0, 1, 2, 3, 4, 5, 6, 7, 8, 9] []

/-- A pooling allocator `MyAllocator<int, 2>` after one call `allocate(1)` on a
freshly constructed instance, together with the system log: the state from
which two containers are built in `sharedFirst` and `sharedSecond`. -/
def sharedSource : MyAllocator 4 2 × Heap :=
  (MyAllocator.allocate 64 (bumpSys 64) (MyAllocator.default 4 2) [] 1).2

/-- A first `MyContainer<int, MyAllocator<int, 2>>` constructed from the
allocator of `sharedSource`, after one `push_back(7)`. -/
def sharedFirst : Result Unit × MyContainer 4 × World Int :=
  MyContainer.push_back 64 (bumpSys 64)
    (MyContainer.new (Allocator.pool 2 sharedSource.1)) ⟨sharedSource.2, emptyMem Int⟩ 7

/-- A second container constructed from the same allocator of `sharedSource`,
after one `push_back(8)` made once `sharedFirst` has run. -/
def sharedSecond : Result Unit × MyContainer 4 × World Int :=
  MyContainer.push_back 64 (bumpSys 64)
    (MyContainer.new (Allocator.pool 2 sharedSource.1)) sharedFirst.2.2 8

/-- The addresses answered by the successful requests among the events. -/
def newAddrs : Heap → List Addr
  | [] => []
  | SysEvent.new _ (some p) :: evs => p :: newAddrs evs
  | SysEvent.new _ none :: evs => newAddrs evs
  | SysEvent.delete _ :: evs => newAddrs evs

/-- A call a client makes on an allocator. -/
inductive Call where
  | allocate (n : Nat)
  | deallocate (p : Addr) (n : Nat)
  deriving DecidableEq, Repr

/-- An allocator in use, with the system log and two records kept alongside:
`handed` lists the addresses returned by `allocate` and not given back yet,
each with the count `n` it was requested with; `refilled` lists the chunks
obtained by the requests that `allocate` made on its pooled path (the calls of
`expand`). -/
structure Session (sizeofT BlockSize : Nat) where
  alloc : MyAllocator sizeofT BlockSize
  heap : Heap
  handed : List (Addr × Nat)
  refilled : List Addr
  deriving DecidableEq, Repr

/-- A freshly constructed allocator, nothing handed out, on a system with
history `h0`. -/
def Session.fresh (sizeofT BlockSize : Nat) (h0 : Heap) : Session sizeofT BlockSize :=
  ⟨MyAllocator.default sizeofT BlockSize, h0, [], []⟩

/-- The check a client has to pass to call `deallocate(p, n)`, and the record
of handed-out addresses afterwards. With `sameN` the address must have been
returned by an `allocate(n)` with this very `n`; without it, by any `allocate`.
In both cases it must not have been given back since. -/
def giveBack (sameN : Bool) (handed : List (Addr × Nat)) (p : Addr) (n : Nat) :
    Option (List (Addr × Nat)) :=
  if sameN then
    if (p, n) ∈ handed then some (handed.erase (p, n)) else none
  else
    match handed.find? (fun e => e.1 == p) with
    | some e => some (handed.erase e)
    | none => none

/-- One call on the allocator of a session. A call `allocate(n)` that throws
leaves the allocator and the log as the member function left them; one that
runs into undefined behaviour has no successor state, and neither has a
`deallocate` the client was not entitled to. The chunks obtained are read off
the part of the log the call appended. -/
def Session.step {sizeofT BlockSize : Nat} (w : Nat) (sys : SysAlloc) (sameN : Bool)
    (st : Session sizeofT BlockSize) : Call → Option (Session sizeofT BlockSize)
  | Call.allocate n =>
    match MyAllocator.allocate w sys st.alloc st.heap n with
    | (Result.ok p, a1, h1) =>
      some ⟨a1, h1, st.handed ++ [(p, n)],
        st.refilled ++ (if n > BlockSize then [] else newAddrs (h1.drop st.heap.length))⟩
    | (Result.bad_alloc, a1, h1) =>
      some ⟨a1, h1, st.handed,
        st.refilled ++ (if n > BlockSize then [] else newAddrs (h1.drop st.heap.length))⟩
    | (Result.undefined, _, _) => none
  | Call.deallocate p n =>
    match giveBack sameN st.handed p n with
    | none => none
    | some handed1 =>
      match MyAllocator.deallocate st.alloc st.heap p n with
      | (a1, h1) => some ⟨a1, h1, handed1, st.refilled⟩

/-- A sequence of calls on the allocator of a session, in order. -/
def Session.run {sizeofT BlockSize : Nat} (w : Nat) (sys : SysAlloc) (sameN : Bool) :
    List Call → Session sizeofT BlockSize → Option (Session sizeofT BlockSize)
  | [], st => some st
  | c :: cs, st =>
    match Session.step w sys sameN st c with
    | none => none
    | some st1 => Session.run w sys sameN cs st1

/-- The bookkeeping of a session is consistent with the pool: every free block
and every handed-out address requested with `n ≤ BlockSize` is a refill chunk,
and every refill chunk was answered to a request of exactly `sizeof(T)` bytes
made after the history `h0`. -/
def Session.Pooled {sizeofT BlockSize : Nat} (h0 : Heap) (st : Session sizeofT BlockSize) :
    Prop :=
  (∀ p ∈ st.alloc.free_blocks, p ∈ st.refilled) ∧
  (∀ e ∈ st.handed, e.2 ≤ BlockSize → e.1 ∈ st.refilled) ∧
  (∃ evs : Heap, st.heap = h0 ++ evs ∧
    ∀ p ∈ st.refilled, SysEvent.new sizeofT (some p) ∈ evs)

/-- How a call ends when the storage of `free_blocks` is part of the model:
normally, with `std::bad_alloc` propagating to the caller, with
`std::terminate` because an exception reached the boundary of a `noexcept`
function, or in undefined behaviour. -/
inductive Exit (α : Type) where
  | ok (v : α)
  | bad_alloc
  | terminate
  | undefined
  deriving DecidableEq, Repr

/-- A `std::vector<pointer>` together with its storage: the elements, the
capacity of the buffer and the buffer's address (meaningful when the capacity
is not zero). -/
structure Vec where
  items : List Addr
  capacity : Nat
  buffer : Addr
  deriving DecidableEq, Repr

/-- What the standard library fixes about a `std::vector<pointer>`: the capacity
chosen when a full vector of a given capacity has to grow, and `sizeof(pointer)`. -/
structure VecPolicy where
  grow : Nat → Nat
  sizeofPtr : Nat

/-- A growth policy that doubles the capacity, starting from one element, with
8-byte pointers. -/
def doubling : VecPolicy :=
  ⟨fun c => max 1 (2 * c), 8⟩

/-- A system allocator that refuses every request. -/
def exhausted : SysAlloc :=
  fun _ _ => none

/-- Some request among the events was refused by the system allocator. -/
def Refused (evs : Heap) : Prop :=
  ∃ b : Nat, SysEvent.new b none ∈ evs

namespace Vec

/-- A default-constructed vector: no elements, no buffer. -/
def empty : Vec :=
  ⟨[], 0, 0⟩

/-- The member `push_back(x)` of `std::vector<pointer>` (standard library).
With room left the element is stored and the system allocator is not called.
A full vector first requests a larger buffer with `::operator new`; when that
throws, the exception leaves `push_back` (`none`) and the vector is unchanged;
otherwise the elements move to the new buffer and the old one, if any, goes to
`::operator delete`. -/
def push_back (pol : VecPolicy) (sys : SysAlloc) (v : Vec) (h : Heap) (x : Addr) :
    Option Vec × Heap :=
  if v.items.length < v.capacity then (some ⟨v.items ++ [x], v.capacity, v.buffer⟩, h)
  else
    match opNew sys h (pol.grow v.capacity * pol.sizeofPtr) with
    | (none, h1) => (none, h1)
    | (some b, h1) =>
      (some ⟨v.items ++ [x], pol.grow v.capacity, b⟩,
        if v.capacity = 0 then h1 else opDelete h1 v.buffer)

/-- The member `pop_back()`: the last element is removed, the buffer is kept. -/
def pop_back (v : Vec) : Vec :=
  ⟨v.items.dropLast, v.capacity, v.buffer⟩

end Vec

namespace WithStorage

/-- The class `MyAllocator<T, BlockSize>` with the storage of its member
`free_blocks` modelled. -/
structure MyAllocator (sizeofT : Nat) (BlockSize : Nat) where
  free_blocks : Vec
  deriving DecidableEq, Repr

namespace MyAllocator

/-- The defaulted default constructor. -/
def default (sizeofT BlockSize : Nat) : MyAllocator sizeofT BlockSize :=
  ⟨Vec.empty⟩

/-- The loop of `expand` with `k` iterations left: each iteration obtains a
chunk with `::operator new(sizeof(T))` and passes it to
`free_blocks.push_back`; either call may throw, which ends the loop with the
flag `false`. -/
def expandLoop {sizeofT BlockSize : Nat} (pol : VecPolicy) (sys : SysAlloc) :
    Nat → MyAllocator sizeofT BlockSize → Heap → Bool × MyAllocator sizeofT BlockSize × Heap
  | 0, a, h => (true, a, h)
  | k + 1, a, h =>
    match opNew sys h sizeofT with
    | (none, h1) => (false, a, h1)
    | (some p, h1) =>
      match a.free_blocks.push_back pol sys h1 p with
      | (none, h2) => (false, a, h2)
      | (some v, h2) => expandLoop pol sys k ⟨v⟩ h2

/-- The member `expand()`. -/
def expand {sizeofT BlockSize : Nat} (pol : VecPolicy) (sys : SysAlloc)
    (a : MyAllocator sizeofT BlockSize) (h : Heap) :
    Bool × MyAllocator sizeofT BlockSize × Heap :=
  expandLoop pol sys BlockSize a h

/-- The member `allocate(n)`; an exception thrown in it propagates to the
caller. -/
def allocate {sizeofT BlockSize : Nat} (pol : VecPolicy) (w : Nat) (sys : SysAlloc)
    (a : MyAllocator sizeofT BlockSize) (h : Heap) (n : Nat) :
    Exit Addr × MyAllocator sizeofT BlockSize × Heap :=
  if n > BlockSize then
    match opNew sys h ((n * sizeofT) % 2 ^ w) with
    | (some p, h1) => (Exit.ok p, a, h1)
    | (none, h1) => (Exit.bad_alloc, a, h1)
  else
    match (if a.free_blocks.items.isEmpty then expand pol sys a h else (true, a, h)) with
    | (false, a1, h1) => (Exit.bad_alloc, a1, h1)
    | (true, a1, h1) =>
      match a1.free_blocks.items.getLast? with
      | none => (Exit.undefined, a1, h1)
      | some p => (Exit.ok p, ⟨a1.free_blocks.pop_back⟩, h1)

/-- The member `deallocate(p, n)`, declared `noexcept`: an exception thrown by
`free_blocks.push_back` cannot leave it and ends the program through
`std::terminate`. -/
def deallocate {sizeofT BlockSize : Nat} (pol : VecPolicy) (sys : SysAlloc)
    (a : MyAllocator sizeofT BlockSize) (h : Heap) (p : Addr) (n : Nat) :
    Exit Unit × MyAllocator sizeofT BlockSize × Heap :=
  if n > BlockSize then (Exit.ok (), a, opDelete h p)
  else
    match a.free_blocks.push_back pol sys h p with
    | (some v, h1) => (Exit.ok (), ⟨v⟩, h1)
    | (none, h1) => (Exit.terminate, a, h1)

/-- The member `max_size()`; a division by `sizeof(T) = 0` would be undefined. -/
def max_size {sizeofT BlockSize : Nat} (w : Nat) (_a : MyAllocator sizeofT BlockSize) :
    Exit Nat :=
  if sizeofT = 0 then Exit.undefined
  else Exit.ok (min (2 ^ w - 1) ((2 ^ w - 1) / sizeofT))

/-- The free function `operator==`. -/
def eq {sizeofT sizeofU BlockSize : Nat}
    (_a : MyAllocator sizeofT BlockSize) (_b : MyAllocator sizeofU BlockSize) : Exit Bool :=
  Exit.ok true

/-- The free function `operator!=`. -/
def ne {sizeofT sizeofU BlockSize : Nat}
    (_a : MyAllocator sizeofT BlockSize) (_b : MyAllocator sizeofU BlockSize) : Exit Bool :=
  Exit.ok false

end MyAllocator

end WithStorage

/-! ## Lemmas on `allocate`, `expand` and `deallocate` -/

theorem allocate_large {sizeofT BlockSize : Nat} (w : Nat) (sys : SysAlloc)
    (a : MyAllocator sizeofT BlockSize) (h : Heap) (n : Nat) (hn : n > BlockSize) :
    MyAllocator.allocate w sys a h n =
      ((match sys h ((n * sizeofT) % 2 ^ w) with
        | some p => Result.ok p
        | none => Result.bad_alloc), a,
       h ++ [SysEvent.new ((n * sizeofT) % 2 ^ w) (sys h ((n * sizeofT) % 2 ^ w))]) := by
  unfold MyAllocator.allocate opNew
  rw [if_pos hn]
  cases sys h ((n * sizeofT) % 2 ^ w) <;> rfl

theorem allocate_small_nonempty {sizeofT BlockSize : Nat} (w : Nat) (sys : SysAlloc)
    (a : MyAllocator sizeofT BlockSize) (h : Heap) (n : Nat) (hn : n ≤ BlockSize)
    (qs : List Addr) (p : Addr) (hfl : a.free_blocks = qs ++ [p]) :
    MyAllocator.allocate w sys a h n = (Result.ok p, ⟨qs⟩, h) := by
  unfold MyAllocator.allocate
  rw [if_neg (Nat.not_lt.mpr hn)]
  simp [hfl]

theorem allocate_small_empty {sizeofT BlockSize : Nat} (w : Nat) (sys : SysAlloc)
    (a : MyAllocator sizeofT BlockSize) (h : Heap) (n : Nat) (hn : n ≤ BlockSize)
    (hfl : a.free_blocks = []) :
    MyAllocator.allocate w sys a h n =
      (match MyAllocator.expand sys a h with
        | (false, a1, h1) => (Result.bad_alloc, a1, h1)
        | (true, a1, h1) =>
          match a1.free_blocks.getLast? with
          | none => (Result.undefined, a1, h1)
          | some p => (Result.ok p, ⟨a1.free_blocks.dropLast⟩, h1)) := by
  unfold MyAllocator.allocate
  rw [if_neg (Nat.not_lt.mpr hn)]
  simp [hfl]

theorem expandLoop_of_answers {sizeofT BlockSize : Nat} (sys : SysAlloc) :
    ∀ (ps : List Addr) (a : MyAllocator sizeofT BlockSize) (h : Heap),
      Answers sys sizeofT h ps →
      MyAllocator.expandLoop sys ps.length a h =
        (true, ⟨a.free_blocks ++ ps⟩, h ++ chunkEvents sizeofT ps)
  | [], a, h, _ => by simp [MyAllocator.expandLoop, chunkEvents]
  | p :: ps, a, h, hans => by
    obtain ⟨hp, hrest⟩ := hans
    have ih := expandLoop_of_answers sys ps
      (⟨a.free_blocks ++ [p]⟩ : MyAllocator sizeofT BlockSize) _ hrest
    simp only [List.length_cons, MyAllocator.expandLoop, opNew, hp, ih]
    simp [chunkEvents]

theorem expandLoop_true_inv {sizeofT BlockSize : Nat} (sys : SysAlloc) :
    ∀ (k : Nat) (a a1 : MyAllocator sizeofT BlockSize) (h h1 : Heap),
      MyAllocator.expandLoop sys k a h = (true, a1, h1) →
      ∃ ps : List Addr, ps.length = k ∧ Answers sys sizeofT h ps ∧
        a1.free_blocks = a.free_blocks ++ ps ∧ h1 = h ++ chunkEvents sizeofT ps
  | 0, a, a1, h, h1, hrun => by
    simp only [MyAllocator.expandLoop, Prod.mk.injEq, true_and] at hrun
    obtain ⟨rfl, rfl⟩ := hrun
    exact ⟨[], rfl, trivial, by simp, by simp [chunkEvents]⟩
  | k + 1, a, a1, h, h1, hrun => by
    simp only [MyAllocator.expandLoop, opNew] at hrun
    cases hp : sys h sizeofT with
    | none => simp [hp] at hrun
    | some p =>
      simp only [hp] at hrun
      obtain ⟨ps, hlen, hans, hfl, hh⟩ := expandLoop_true_inv sys k _ a1 _ h1 hrun
      refine ⟨p :: ps, by simp [hlen], ⟨hp, hans⟩, ?_, ?_⟩
      · simpa using hfl
      · simpa [chunkEvents] using hh

theorem allocate_small_empty_ok_inv {sizeofT BlockSize : Nat} (w : Nat) (sys : SysAlloc)
    (a : MyAllocator sizeofT BlockSize) (h : Heap) (n : Nat)
    (hB : 1 ≤ BlockSize) (hn : n ≤ BlockSize) (hfl : a.free_blocks = [])
    (p : Addr) (a1 : MyAllocator sizeofT BlockSize) (h1 : Heap)
    (hrun : MyAllocator.allocate w sys a h n = (Result.ok p, a1, h1)) :
    (a1.free_blocks ++ [p]).length = BlockSize ∧
    Answers sys sizeofT h (a1.free_blocks ++ [p]) ∧
    h1 = h ++ chunkEvents sizeofT (a1.free_blocks ++ [p]) := by
  rw [allocate_small_empty w sys a h n hn hfl] at hrun
  unfold MyAllocator.expand at hrun
  rcases hex : MyAllocator.expandLoop sys BlockSize a h with ⟨ok, a2, h2⟩
  rw [hex] at hrun
  cases ok with
  | false => simp at hrun
  | true =>
    obtain ⟨ps, hlen, hans, hfl2, hh2⟩ := expandLoop_true_inv sys BlockSize a a2 h h2 hex
    rw [hfl, List.nil_append] at hfl2
    simp only [hfl2] at hrun
    rcases List.eq_nil_or_concat ps with hnil | ⟨qs, q, hps⟩
    · subst hnil
      simp at hlen
      omega
    · subst hps
      simp only [List.concat_eq_append] at hlen hans hrun hh2
      simp only [List.getLast?_append, List.getLast?_singleton, Option.or_some,
        List.dropLast_concat, Prod.mk.injEq, Result.ok.injEq] at hrun
      obtain ⟨rfl, rfl, rfl⟩ := hrun
      exact ⟨hlen, hans, hh2⟩

theorem allocate_small_ok_cases {sizeofT BlockSize : Nat} (w : Nat) (sys : SysAlloc)
    (a : MyAllocator sizeofT BlockSize) (h : Heap) (n : Nat)
    (hB : 1 ≤ BlockSize) (hn : n ≤ BlockSize)
    (p : Addr) (a1 : MyAllocator sizeofT BlockSize) (h1 : Heap)
    (hrun : MyAllocator.allocate w sys a h n = (Result.ok p, a1, h1)) :
    (a.free_blocks = [] ∧ (a1.free_blocks ++ [p]).length = BlockSize ∧
      Answers sys sizeofT h (a1.free_blocks ++ [p]) ∧
      h1 = h ++ chunkEvents sizeofT (a1.free_blocks ++ [p])) ∨
    (a.free_blocks = a1.free_blocks ++ [p] ∧ h1 = h) := by
  rcases List.eq_nil_or_concat a.free_blocks with hnil | ⟨qs, q, hqs⟩
  · exact Or.inl ⟨hnil, allocate_small_empty_ok_inv w sys a h n hB hn hnil p a1 h1 hrun⟩
  · right
    rw [List.concat_eq_append] at hqs
    rw [allocate_small_nonempty w sys a h n hn qs q hqs] at hrun
    simp only [Prod.mk.injEq, Result.ok.injEq] at hrun
    obtain ⟨rfl, rfl, rfl⟩ := hrun
    exact ⟨hqs, rfl⟩

theorem live_append_event (h : Heap) (e : SysEvent) :
    live (h ++ [e]) = liveStep (live h) e := by
  simp [live, List.foldl_append]

theorem live_append_chunks (bytes : Nat) :
    ∀ (ps : List Addr) (h : Heap), live (h ++ chunkEvents bytes ps) = live h ++ ps
  | [], h => by simp [chunkEvents]
  | p :: ps, h => by
    have ih := live_append_chunks bytes ps (h ++ [SysEvent.new bytes (some p)])
    have hstep : live (h ++ [SysEvent.new bytes (some p)]) = live h ++ [p] := by
      rw [live_append_event]
      rfl
    rw [hstep] at ih
    have hsplit : h ++ chunkEvents bytes (p :: ps) =
        (h ++ [SysEvent.new bytes (some p)]) ++ chunkEvents bytes ps := by
      simp [chunkEvents]
    rw [hsplit, ih]
    simp

theorem answers_owned (sys : SysAlloc) (hfresh : SysFresh sys) (bytes : Nat) :
    ∀ (ps : List Addr) (h : Heap) (l : List Addr), Owned h l → Answers sys bytes h ps →
      Owned (h ++ chunkEvents bytes ps) (l ++ ps)
  | [], h, l, hown, _ => by simpa [chunkEvents] using hown
  | p :: ps, h, l, hown, hans => by
    obtain ⟨hp, hrest⟩ := hans
    have hnew : p ∉ live h := hfresh h bytes p hp
    have hstep : live (h ++ [SysEvent.new bytes (some p)]) = live h ++ [p] := by
      rw [live_append_event]
      rfl
    have hown1 : Owned (h ++ [SysEvent.new bytes (some p)]) (l ++ [p]) := by
      constructor
      · rw [List.nodup_append]
        refine ⟨hown.1, List.nodup_singleton p, ?_⟩
        intro q hq hq1
        rw [List.mem_singleton] at hq1
        subst hq1
        exact hnew (hown.2 q hq)
      · intro q hq
        rw [hstep]
        rcases List.mem_append.mp hq with hq | hq
        · exact List.mem_append_left _ (hown.2 q hq)
        · exact List.mem_append_right _ hq
    have ih := answers_owned sys hfresh bytes ps _ _ hown1 hrest
    have hsplit : h ++ chunkEvents bytes (p :: ps) =
        (h ++ [SysEvent.new bytes (some p)]) ++ chunkEvents bytes ps := by
      simp [chunkEvents]
    rw [hsplit]
    simpa using ih

theorem answers_inRange (w : Nat) (sys : SysAlloc) (hrange : SysInRange w sys) (bytes : Nat) :
    ∀ (ps : List Addr) (h : Heap), Answers sys bytes h ps → AddrsInRange w ps
  | [], _, _ => by simp [AddrsInRange]
  | p :: ps, h, hans => by
    obtain ⟨hp, hrest⟩ := hans
    intro q hq
    rcases List.mem_cons.mp hq with rfl | hq
    · exact hrange h bytes q hp
    · exact answers_inRange w sys hrange bytes ps _ hrest q hq

theorem owned_perm {h : Heap} {l1 l2 : List Addr} (hperm : l1.Perm l2) (hown : Owned h l1) :
    Owned h l2 :=
  ⟨hperm.nodup_iff.mp hown.1, fun p hp => hown.2 p (hperm.mem_iff.mpr hp)⟩

theorem length_lt_of_nodup_inRange (w : Nat) (l : List Addr) (hnd : l.Nodup)
    (hr : AddrsInRange w l) : l.length < 2 ^ w := by
  have hsub : l.toFinset ⊆ Finset.Ico 1 (2 ^ w) := by
    intro p hp
    rw [List.mem_toFinset] at hp
    rw [Finset.mem_Ico]
    exact hr p hp
  have hcard := Finset.card_le_card hsub
  rw [List.toFinset_card_of_nodup hnd, Nat.card_Ico] at hcard
  have hpos : 0 < 2 ^ w := Nat.two_pow_pos w
  omega

theorem mem_live_le_maxAddr : ∀ (h : Heap) (p : Addr), p ∈ live h → p ≤ maxAddr h := by
  intro h
  induction h using List.reverseRecOn with
  | nil => intro p hp; simp [live] at hp
  | append_singleton h e ih =>
    intro p hp
    rw [live_append_event] at hp
    have hmax : maxAddr (h ++ [e]) = maxStep (maxAddr h) e := by
      simp [maxAddr, List.foldl_append]
    rw [hmax]
    cases e with
    | delete q =>
      simp only [liveStep, List.mem_filter] at hp
      exact ih p hp.1
    | new b res =>
      cases res with
      | none => exact ih p hp
      | some q =>
        simp only [liveStep, List.mem_append, List.mem_singleton] at hp
        rcases hp with hp | rfl
        · exact le_trans (ih p hp) (le_max_left _ _)
        · exact le_max_right _ _

theorem bumpSys_fresh (w : Nat) : SysFresh (bumpSys w) := by
  intro h bytes p hp hmem
  unfold bumpSys at hp
  split at hp
  · simp only [Option.some.injEq] at hp
    have hle := mem_live_le_maxAddr h p hmem
    rw [← hp] at hle
    exact absurd hle (Nat.not_succ_le_self _)
  · simp at hp

theorem bumpSys_inRange (w : Nat) : SysInRange w (bumpSys w) := by
  intro h bytes p hp
  unfold bumpSys at hp
  split at hp
  next hlt =>
    simp only [Option.some.injEq] at hp
    rw [← hp]
    exact ⟨Nat.succ_pos _, hlt⟩
  · simp at hp

/-! ## The container -/

theorem allocator_allocate_std {sizeofT : Nat} (w : Nat) (sys : SysAlloc) (h : Heap) (n : Nat) :
    Allocator.allocate w sys (Allocator.std : Allocator sizeofT) h n =
      (if n * sizeofT < 2 ^ w then
        (match sys h (n * sizeofT) with
          | some p => (Result.ok p, Allocator.std,
              h ++ [SysEvent.new (n * sizeofT) (sys h (n * sizeofT))])
          | none => (Result.bad_alloc, Allocator.std,
              h ++ [SysEvent.new (n * sizeofT) (sys h (n * sizeofT))]))
      else (Result.bad_alloc, Allocator.std, h)) := by
  simp only [Allocator.allocate, opNew]
  cases sys h (n * sizeofT) <;> rfl

theorem allocator_allocate_pool {sizeofT : Nat} (w : Nat) (sys : SysAlloc) (B : Nat)
    (a : MyAllocator sizeofT B) (h : Heap) (n : Nat) :
    Allocator.allocate w sys (Allocator.pool B a) h n =
      ((MyAllocator.allocate w sys a h n).1,
       Allocator.pool B (MyAllocator.allocate w sys a h n).2.1,
       (MyAllocator.allocate w sys a h n).2.2) := rfl

theorem allocator_allocate_one_ok {sizeofT : Nat} (w : Nat) (sys : SysAlloc)
    (al al1 : Allocator sizeofT) (h h1 : Heap) (p : Addr)
    (hrun : Allocator.allocate w sys al h 1 = (Result.ok p, al1, h1)) :
    ∃ (bytes : Nat) (ps : List Addr), Answers sys bytes h ps ∧
      h1 = h ++ chunkEvents bytes ps ∧ al.pooled ++ ps = al1.pooled ++ [p] := by
  cases al with
  | std =>
    rw [allocator_allocate_std] at hrun
    split at hrun
    · cases hp : sys h (1 * sizeofT) with
      | none =>
        rw [hp] at hrun
        simp at hrun
      | some q =>
        rw [hp] at hrun
        simp only [Prod.mk.injEq, Result.ok.injEq] at hrun
        obtain ⟨rfl, rfl, rfl⟩ := hrun
        exact ⟨1 * sizeofT, [q], ⟨hp, trivial⟩, by simp [chunkEvents], rfl⟩
    · simp at hrun
  | pool B a =>
    rw [allocator_allocate_pool] at hrun
    rcases hal : MyAllocator.allocate w sys a h 1 with ⟨r, a2, h2⟩
    rw [hal] at hrun
    simp only [Prod.mk.injEq] at hrun
    obtain ⟨rfl, rfl, rfl⟩ := hrun
    by_cases hB : 1 > B
    · rw [allocate_large w sys a h 1 hB] at hal
      cases hp : sys h ((1 * sizeofT) % 2 ^ w) with
      | none =>
        rw [hp] at hal
        simp at hal
      | some q =>
        rw [hp] at hal
        simp only [Prod.mk.injEq, Result.ok.injEq] at hal
        obtain ⟨rfl, rfl, rfl⟩ := hal
        exact ⟨(1 * sizeofT) % 2 ^ w, [q], ⟨hp, trivial⟩, by simp [chunkEvents], rfl⟩
    · have hB1 : 1 ≤ B := Nat.not_lt.mp hB
      rcases allocate_small_ok_cases w sys a h 1 hB1 hB1 p a2 h2 hal with
        ⟨hnil, -, hans, hh⟩ | ⟨hfl, hh⟩
      · exact ⟨sizeofT, a2.free_blocks ++ [p], hans, hh, by simp [Allocator.pooled, hnil]⟩
      · exact ⟨sizeofT, [], trivial, by simp [chunkEvents, hh], by simp [Allocator.pooled, hfl]⟩

theorem push_back_ok_inv {sizeofT : Nat} {α : Type} (w : Nat) (sys : SysAlloc)
    (c c1 : MyContainer sizeofT) (wd wd1 : World α) (v : α) (u : Unit)
    (hrun : MyContainer.push_back w sys c wd v = (Result.ok u, c1, wd1)) :
    ∃ (p : Addr) (bytes : Nat) (ps : List Addr), Answers sys bytes wd.heap ps ∧
      wd1.heap = wd.heap ++ chunkEvents bytes ps ∧
      c.alloc_.pooled ++ ps = c1.alloc_.pooled ++ [p] ∧
      c1.elements_ = c.elements_ ++ [p] ∧
      c1.size_ = (c.size_ + 1) % 2 ^ w ∧
      wd1.mem = construct wd.mem p v := by
  unfold MyContainer.push_back at hrun
  rcases hal : Allocator.allocate w sys c.alloc_ wd.heap 1 with ⟨r, al, h1⟩
  rw [hal] at hrun
  cases r with
  | bad_alloc => simp at hrun
  | undefined => simp at hrun
  | ok p =>
    simp only [Prod.mk.injEq] at hrun
    obtain ⟨-, hc, hw⟩ := hrun
    subst hc
    subst hw
    obtain ⟨bytes, ps, hans, hh, hpool⟩ := allocator_allocate_one_ok w sys _ _ _ _ p hal
    exact ⟨p, bytes, ps, hans, hh, hpool, rfl, rfl, rfl⟩

theorem pushAll_cons_inv {sizeofT : Nat} {α : Type} (w : Nat) (sys : SysAlloc)
    (v : α) (vs : List α) (c c2 : MyContainer sizeofT) (wd wd2 : World α)
    (hrun : MyContainer.pushAll w sys (v :: vs) c wd = some (c2, wd2)) :
    ∃ (u : Unit) (c1 : MyContainer sizeofT) (wd1 : World α),
      MyContainer.push_back w sys c wd v = (Result.ok u, c1, wd1) ∧
      MyContainer.pushAll w sys vs c1 wd1 = some (c2, wd2) := by
  simp only [MyContainer.pushAll] at hrun
  rcases hpb : MyContainer.push_back w sys c wd v with ⟨r, c1, wd1⟩
  rw [hpb] at hrun
  cases r with
  | bad_alloc => simp at hrun
  | undefined => simp at hrun
  | ok u => exact ⟨u, c1, wd1, rfl, hrun⟩

theorem push_back_owned {sizeofT : Nat} {α : Type} (w : Nat) (sys : SysAlloc)
    (hfresh : SysFresh sys)
    (c c1 : MyContainer sizeofT) (wd wd1 : World α) (v : α) (u : Unit)
    (hown : Owned wd.heap (c.elements_ ++ c.alloc_.pooled))
    (hrun : MyContainer.push_back w sys c wd v = (Result.ok u, c1, wd1)) :
    Owned wd1.heap (c1.elements_ ++ c1.alloc_.pooled) ∧
    ∃ p : Addr, p ∉ c.elements_ ∧ c1.elements_ = c.elements_ ++ [p] ∧
      wd1.mem = construct wd.mem p v := by
  obtain ⟨p, bytes, ps, hans, hh, hpool, hel, -, hmem⟩ := push_back_ok_inv w sys c c1 wd wd1 v u hrun
  have hown1 := answers_owned sys hfresh bytes ps wd.heap _ hown hans
  rw [← hh, List.append_assoc, hpool] at hown1
  have hperm : (c.elements_ ++ (c1.alloc_.pooled ++ [p])).Perm
      (c1.elements_ ++ c1.alloc_.pooled) := by
    rw [hel, List.append_assoc]
    exact List.Perm.append_left _ List.perm_append_comm
  refine ⟨owned_perm hperm hown1, p, ?_, hel, hmem⟩
  intro hp
  have hnd := hown1.1
  rw [List.nodup_append] at hnd
  exact hnd.2.2 hp (List.mem_append_right _ (List.mem_singleton_self p))

theorem push_back_inRange {sizeofT : Nat} {α : Type} (w : Nat) (sys : SysAlloc)
    (hrange : SysInRange w sys)
    (c c1 : MyContainer sizeofT) (wd wd1 : World α) (v : α) (u : Unit)
    (hr : AddrsInRange w (c.elements_ ++ c.alloc_.pooled))
    (hrun : MyContainer.push_back w sys c wd v = (Result.ok u, c1, wd1)) :
    AddrsInRange w (c1.elements_ ++ c1.alloc_.pooled) := by
  obtain ⟨p, bytes, ps, hans, -, hpool, hel, -, -⟩ := push_back_ok_inv w sys c c1 wd wd1 v u hrun
  have hps := answers_inRange w sys hrange bytes ps wd.heap hans
  intro q hq
  rw [hel, List.append_assoc] at hq
  have hq1 : q ∈ c.elements_ ++ (c1.alloc_.pooled ++ [p]) := by
    rcases List.mem_append.mp hq with hq | hq
    · exact List.mem_append_left _ hq
    · exact List.mem_append_right _ (List.perm_append_comm.mem_iff.mp hq)
  rw [← hpool, ← List.append_assoc] at hq1
  rcases List.mem_append.mp hq1 with hq1 | hq1
  · exact hr q hq1
  · exact hps q hq1

theorem pushAll_owned {sizeofT : Nat} {α : Type} (w : Nat) (sys : SysAlloc)
    (hfresh : SysFresh sys) :
    ∀ (vs : List α) (c c2 : MyContainer sizeofT) (wd wd2 : World α),
      Owned wd.heap (c.elements_ ++ c.alloc_.pooled) →
      MyContainer.pushAll w sys vs c wd = some (c2, wd2) →
      Owned wd2.heap (c2.elements_ ++ c2.alloc_.pooled) ∧
      ∃ ptrs : List Addr, c2.elements_ = c.elements_ ++ ptrs ∧
        (∀ q ∈ c.elements_, wd2.mem q = wd.mem q) ∧
        ptrs.map wd2.mem = vs.map some
  | [], c, c2, wd, wd2, hown, hrun => by
    simp only [MyContainer.pushAll, Option.some.injEq, Prod.mk.injEq] at hrun
    obtain ⟨rfl, rfl⟩ := hrun
    exact ⟨hown, [], by simp, fun _ _ => rfl, rfl⟩
  | v :: vs, c, c2, wd, wd2, hown, hrun => by
    obtain ⟨u, c1, wd1, hpb, hrest⟩ := pushAll_cons_inv w sys v vs c c2 wd wd2 hrun
    obtain ⟨hown1, p, hp, hel, hmem⟩ := push_back_owned w sys hfresh c c1 wd wd1 v u hown hpb
    obtain ⟨hown2, ptrs, hel2, hkeep, hvals⟩ :=
      pushAll_owned w sys hfresh vs c1 c2 wd1 wd2 hown1 hrest
    refine ⟨hown2, p :: ptrs, ?_, ?_, ?_⟩
    · rw [hel2, hel, List.append_assoc]
      rfl
    · intro q hq
      have hq1 : q ∈ c1.elements_ := by
        rw [hel]
        exact List.mem_append_left _ hq
      have hne : q ≠ p := fun hqp => hp (hqp ▸ hq)
      rw [hkeep q hq1, hmem]
      simp [construct, hne]
    · have hp1 : p ∈ c1.elements_ := by
        rw [hel]
        exact List.mem_append_right _ (List.mem_singleton_self p)
      simp only [List.map_cons, hvals, hkeep p hp1, hmem]
      simp [construct]

theorem pushAll_inRange {sizeofT : Nat} {α : Type} (w : Nat) (sys : SysAlloc)
    (hrange : SysInRange w sys) :
    ∀ (vs : List α) (c c2 : MyContainer sizeofT) (wd wd2 : World α),
      AddrsInRange w (c.elements_ ++ c.alloc_.pooled) →
      MyContainer.pushAll w sys vs c wd = some (c2, wd2) →
      AddrsInRange w (c2.elements_ ++ c2.alloc_.pooled)
  | [], c, c2, wd, wd2, hr, hrun => by
    simp only [MyContainer.pushAll, Option.some.injEq, Prod.mk.injEq] at hrun
    obtain ⟨rfl, rfl⟩ := hrun
    exact hr
  | v :: vs, c, c2, wd, wd2, hr, hrun => by
    obtain ⟨u, c1, wd1, hpb, hrest⟩ := pushAll_cons_inv w sys v vs c c2 wd wd2 hrun
    exact pushAll_inRange w sys hrange vs c1 c2 wd1 wd2
      (push_back_inRange w sys hrange c c1 wd wd1 v u hr hpb) hrest

theorem pushAll_size {sizeofT : Nat} {α : Type} (w : Nat) (sys : SysAlloc) :
    ∀ (vs : List α) (c c2 : MyContainer sizeofT) (wd wd2 : World α),
      c.size_ < 2 ^ w →
      MyContainer.pushAll w sys vs c wd = some (c2, wd2) →
      c2.size_ = (c.size_ + vs.length) % 2 ^ w
  | [], c, c2, wd, wd2, hlt, hrun => by
    simp only [MyContainer.pushAll, Option.some.injEq, Prod.mk.injEq] at hrun
    obtain ⟨rfl, rfl⟩ := hrun
    simp [Nat.mod_eq_of_lt hlt]
  | v :: vs, c, c2, wd, wd2, _, hrun => by
    obtain ⟨u, c1, wd1, hpb, hrest⟩ := pushAll_cons_inv w sys v vs c c2 wd wd2 hrun
    obtain ⟨p, bytes, ps, -, -, -, -, hsz, -⟩ := push_back_ok_inv w sys c c1 wd wd1 v u hpb
    have hlt1 : c1.size_ < 2 ^ w := by
      rw [hsz]
      exact Nat.mod_lt _ (Nat.two_pow_pos w)
    rw [pushAll_size w sys vs c1 c2 wd1 wd2 hlt1 hrest, hsz, List.length_cons,
      Nat.mod_add_mod]
    congr 1
    omega

theorem string_join_cons (x : String) (xs : List String) :
    String.join (x :: xs) = x ++ String.join xs := by
  apply String.ext
  simp

theorem printLoop_eq {α : Type} (render : α → String) (m : Mem α) :
    ∀ (ps : List Addr) (vs : List α) (out : String), ps.map m = vs.map some →
      MyContainer.printLoop render m ps out =
        Result.ok (out ++ String.join (vs.map (fun v => render v ++ " ")))
  | [], vs, out, hvals => by
    cases vs with
    | nil => simp [MyContainer.printLoop, String.join]
    | cons v vs => simp at hvals
  | p :: ps, vs, out, hvals => by
    cases vs with
    | nil => simp at hvals
    | cons v vs =>
      simp only [List.map_cons, List.cons.injEq] at hvals
      obtain ⟨hp, hrest⟩ := hvals
      simp only [MyContainer.printLoop, hp, List.map_cons, string_join_cons]
      rw [printLoop_eq render m ps vs _ hrest]
      simp only [String.append_assoc]

theorem print_eq {sizeofT : Nat} {α : Type} (render : α → String)
    (c : MyContainer sizeofT) (m : Mem α) (vs : List α) (out : String)
    (hvals : c.elements_.map m = vs.map some) :
    MyContainer.print render c m out = Result.ok (out ++ printed render vs) := by
  unfold MyContainer.print printed
  rw [printLoop_eq render m c.elements_ vs out hvals]
  simp only [String.append_assoc]

/-- Claim C1: for every block capacity, free list and `n > BlockSize`,
`allocate(n)` appends exactly one `::operator new` request (of `n * sizeof(T)`
bytes as computed in `size_t`) to the system log, returns the address that
request yields, or fails with `bad_alloc` when the request fails, leaves the
free list as it was in both cases, and its result and its effect on the system
do not depend on the free list. -/
theorem C1_allocate_large_bypasses_pool {sizeofT BlockSize : Nat} (w : Nat) (sys : SysAlloc)
    (a : MyAllocator sizeofT BlockSize) (h : Heap) (n : Nat) (hn : n > BlockSize) :
    (MyAllocator.allocate w sys a h n).2.2 =
        h ++ [SysEvent.new ((n * sizeofT) % 2 ^ w) (sys h ((n * sizeofT) % 2 ^ w))] ∧
    (∀ p, sys h ((n * sizeofT) % 2 ^ w) = some p →
        (MyAllocator.allocate w sys a h n).1 = Result.ok p) ∧
    (sys h ((n * sizeofT) % 2 ^ w) = none →
        (MyAllocator.allocate w sys a h n).1 = Result.bad_alloc) ∧
    (MyAllocator.allocate w sys a h n).2.1 = a ∧
    (∀ b : MyAllocator sizeofT BlockSize,
      (MyAllocator.allocate w sys b h n).1 = (MyAllocator.allocate w sys a h n).1 ∧
      (MyAllocator.allocate w sys b h n).2.2 = (MyAllocator.allocate w sys a h n).2.2) := by
  refine ⟨?_, ?_, ?_, ?_, ?_⟩
  · rw [allocate_large w sys a h n hn]
  · intro p hp
    rw [allocate_large w sys a h n hn, hp]
  · intro hp
    rw [allocate_large w sys a h n hn, hp]
  · rw [allocate_large w sys a h n hn]
  · intro b
    rw [allocate_large w sys a h n hn, allocate_large w sys b h n hn]
    exact ⟨rfl, rfl⟩

/-- Instance of C1: `MyAllocator<int, 10>` holding the free list `[7, 8]` is
asked for 11 elements. -/
theorem C1_allocate_large_bypasses_pool_witness :
    (11 > 10) ∧
    (MyAllocator.allocate 64 (bumpSys 64) (⟨[7, 8]⟩ : MyAllocator 4 10) [] 11).2.2 =
        [] ++ [SysEvent.new ((11 * 4) % 2 ^ 64) (bumpSys 64 [] ((11 * 4) % 2 ^ 64))] ∧
    (MyAllocator.allocate 64 (bumpSys 64) (⟨[7, 8]⟩ : MyAllocator 4 10) [] 11).2.1 = ⟨[7, 8]⟩ :=
  ⟨by decide,
   (C1_allocate_large_bypasses_pool 64 (bumpSys 64) (⟨[7, 8]⟩ : MyAllocator 4 10) [] 11
      (by decide)).1,
   (C1_allocate_large_bypasses_pool 64 (bumpSys 64) (⟨[7, 8]⟩ : MyAllocator 4 10) [] 11
      (by decide)).2.2.2.1⟩

/-- Claim C2: for `BlockSize ≥ 1` and `n ≤ BlockSize`, with a non-empty free
list `allocate(n)` returns its last address, removes exactly that entry and
makes no system request; with an empty free list it makes exactly `BlockSize`
requests of `sizeof(T)` bytes each, returns the chunk obtained last and leaves
the other `BlockSize - 1` chunks in the free list in the order obtained.
Whenever the call on an empty free list returns an address, it did so in this
way. -/
theorem C2_allocate_small_pops_or_refills {sizeofT BlockSize : Nat} (w : Nat) (sys : SysAlloc)
    (a : MyAllocator sizeofT BlockSize) (h : Heap) (n : Nat)
    (hB : 1 ≤ BlockSize) (hn : n ≤ BlockSize) :
    (∀ (qs : List Addr) (p : Addr), a.free_blocks = qs ++ [p] →
      MyAllocator.allocate w sys a h n = (Result.ok p, ⟨qs⟩, h)) ∧
    (a.free_blocks = [] →
      (∀ (qs : List Addr) (p : Addr), (qs ++ [p]).length = BlockSize →
        Answers sys sizeofT h (qs ++ [p]) →
        MyAllocator.allocate w sys a h n =
          (Result.ok p, ⟨qs⟩, h ++ chunkEvents sizeofT (qs ++ [p]))) ∧
      (∀ (p : Addr) (a1 : MyAllocator sizeofT BlockSize) (h1 : Heap),
        MyAllocator.allocate w sys a h n = (Result.ok p, a1, h1) →
        (a1.free_blocks ++ [p]).length = BlockSize ∧
        Answers sys sizeofT h (a1.free_blocks ++ [p]) ∧
        h1 = h ++ chunkEvents sizeofT (a1.free_blocks ++ [p]))) := by
  refine ⟨fun qs p hfl => allocate_small_nonempty w sys a h n hn qs p hfl, fun hfl => ⟨?_, ?_⟩⟩
  · intro qs p hlen hans
    rw [allocate_small_empty w sys a h n hn hfl]
    have hex := expandLoop_of_answers sys (qs ++ [p]) a h hans
    rw [hlen] at hex
    unfold MyAllocator.expand
    rw [hex]
    simp [hfl]
  · intro p a1 h1 hrun
    exact allocate_small_empty_ok_inv w sys a h n hB hn hfl p a1 h1 hrun

/-- Instance of C2: `MyAllocator<int, 3>` with an empty free list is asked for
one element and obtains the chunks 1, 2, 3. -/
theorem C2_allocate_small_pops_or_refills_witness :
    (1 ≤ 3) ∧ (1 ≤ 3) ∧
    MyAllocator.allocate 64 (bumpSys 64) (⟨[]⟩ : MyAllocator 4 3) [] 1 =
      (Result.ok 3, ⟨[1, 2]⟩, [] ++ chunkEvents 4 ([1, 2] ++ [3])) :=
  ⟨by decide, by decide,
   ((C2_allocate_small_pops_or_refills 64 (bumpSys 64) (⟨[]⟩ : MyAllocator 4 3) [] 1
      (by decide) (by decide)).2 rfl).1 [1, 2] 3 rfl
      (by simp [Answers, bumpSys, maxAddr, maxStep])⟩

/-- Claim C6 fails as stated: a `MyAllocator<int, 10>` with free list `[5, 6]`
asked for `n = 2 > 1` elements does not bypass the pool. It makes no system
request, hands out the pooled block 6 and removes it from the free list. -/
theorem C6_two_elements_served_from_pool :
    (2 > 1) ∧
    (MyAllocator.allocate 64 (bumpSys 64) (⟨[5, 6]⟩ : MyAllocator 4 10) [] 2).1 = Result.ok 6 ∧
    (MyAllocator.allocate 64 (bumpSys 64) (⟨[5, 6]⟩ : MyAllocator 4 10) [] 2).2.1 ≠ ⟨[5, 6]⟩ ∧
    (MyAllocator.allocate 64 (bumpSys 64) (⟨[5, 6]⟩ : MyAllocator 4 10) [] 2).2.2 = [] := by
  decide

/-- Claim C6 as amended: the pool is bypassed by the requests with
`n > BlockSize`: such a call leaves the free list as it is, its result and the
log it produces are the same for every free list, and the log grows by the one
`::operator new` request that yields the result. A request with `n = 1` is
served from the free list whenever `BlockSize ≥ 1`: with a non-empty free list
it returns the last entry without any system request. -/
theorem C6_pool_bypassed_above_blocksize {sizeofT BlockSize : Nat} (w : Nat) (sys : SysAlloc)
    (a : MyAllocator sizeofT BlockSize) (h : Heap) (n : Nat) :
    (n > BlockSize →
      (MyAllocator.allocate w sys a h n).2.1 = a ∧
      (∃ bytes : Nat, (MyAllocator.allocate w sys a h n).2.2 =
          h ++ [SysEvent.new bytes (sys h bytes)] ∧
        (MyAllocator.allocate w sys a h n).1 =
          (match sys h bytes with
            | some p => Result.ok p
            | none => Result.bad_alloc)) ∧
      (∀ b : MyAllocator sizeofT BlockSize,
        (MyAllocator.allocate w sys b h n).1 = (MyAllocator.allocate w sys a h n).1 ∧
        (MyAllocator.allocate w sys b h n).2.1 = b ∧
        (MyAllocator.allocate w sys b h n).2.2 = (MyAllocator.allocate w sys a h n).2.2)) ∧
    (1 ≤ BlockSize → ∀ (qs : List Addr) (p : Addr), a.free_blocks = qs ++ [p] →
      MyAllocator.allocate w sys a h 1 = (Result.ok p, ⟨qs⟩, h)) := by
  constructor
  · intro hn
    refine ⟨?_, ⟨(n * sizeofT) % 2 ^ w, ?_, ?_⟩, fun b => ⟨?_, ?_, ?_⟩⟩
    · rw [allocate_large w sys a h n hn]
    · rw [allocate_large w sys a h n hn]
    · rw [allocate_large w sys a h n hn]
    · rw [allocate_large w sys a h n hn, allocate_large w sys b h n hn]
    · rw [allocate_large w sys b h n hn]
    · rw [allocate_large w sys a h n hn, allocate_large w sys b h n hn]
  · intro hB qs p hfl
    exact allocate_small_nonempty w sys a h 1 hB qs p hfl

/-- Instance of amended C6: a `MyAllocator<int, 10>` with free list `[5, 6]`
keeps its free list when asked for 11 elements and pops 6 when asked for one. -/
theorem C6_pool_bypassed_above_blocksize_witness :
    (11 > 10) ∧
    (MyAllocator.allocate 64 (bumpSys 64) (⟨[5, 6]⟩ : MyAllocator 4 10) [] 11).2.1 = ⟨[5, 6]⟩ ∧
    (1 ≤ 10) ∧
    MyAllocator.allocate 64 (bumpSys 64) (⟨[5, 6]⟩ : MyAllocator 4 10) [] 1 =
      (Result.ok 6, ⟨[5]⟩, []) :=
  ⟨by decide,
   ((C6_pool_bypassed_above_blocksize 64 (bumpSys 64) (⟨[5, 6]⟩ : MyAllocator 4 10) [] 11).1
      (by decide)).1,
   by decide,
   (C6_pool_bypassed_above_blocksize 64 (bumpSys 64) (⟨[5, 6]⟩ : MyAllocator 4 10) [] 11).2
      (by decide) [5] 6 rfl⟩

/-- Claim C7: for `sizeof(T) ≥ 1`, `max_size()` is `⌊SIZE_MAX / sizeof(T)⌋`,
and an element count `n` satisfies `n * sizeof(T) ≤ SIZE_MAX` exactly when
`n ≤ max_size()`. -/
theorem C7_max_size_is_overflow_bound {sizeofT BlockSize : Nat} (w : Nat)
    (a : MyAllocator sizeofT BlockSize) (hs : 1 ≤ sizeofT) (n : Nat) :
    (n * sizeofT ≤ 2 ^ w - 1 ↔ n ≤ MyAllocator.max_size w a) ∧
    MyAllocator.max_size w a = (2 ^ w - 1) / sizeofT := by
  have hmax : MyAllocator.max_size w a = (2 ^ w - 1) / sizeofT := by
    unfold MyAllocator.max_size
    exact Nat.min_eq_right (Nat.div_le_self _ _)
  refine ⟨?_, hmax⟩
  rw [hmax]
  exact (Nat.le_div_iff_mul_le hs).symm

/-- Instance of C7: with 4-byte elements and an 8-bit `size_t`, 63 elements
fit (252 bytes) and `max_size()` is 63. -/
theorem C7_max_size_is_overflow_bound_witness :
    (1 ≤ 4) ∧
    (63 * 4 ≤ 2 ^ 8 - 1 ↔ 63 ≤ MyAllocator.max_size 8 (⟨[]⟩ : MyAllocator 4 10)) ∧
    MyAllocator.max_size 8 (⟨[]⟩ : MyAllocator 4 10) = (2 ^ 8 - 1) / 4 :=
  ⟨by decide,
   C7_max_size_is_overflow_bound 8 (⟨[]⟩ : MyAllocator 4 10) (by decide) 63⟩

/-- Claim C8: on any two allocators of equal `BlockSize`, whatever their free
lists and element types, `operator==` is `true` and `operator!=` is `false`;
hence `operator!=` is the negation of `operator==`, and `operator==` is
reflexive, symmetric and transitive. -/
theorem C8_allocators_always_equal {sizeofT sizeofU sizeofV BlockSize : Nat}
    (a : MyAllocator sizeofT BlockSize) (b : MyAllocator sizeofU BlockSize)
    (c : MyAllocator sizeofV BlockSize) :
    MyAllocator.eq a b = true ∧ MyAllocator.ne a b = false ∧
    MyAllocator.ne a b = !MyAllocator.eq a b ∧
    MyAllocator.eq a a = true ∧
    MyAllocator.eq a b = MyAllocator.eq b a ∧
    (MyAllocator.eq a b = true → MyAllocator.eq b c = true → MyAllocator.eq a c = true) :=
  ⟨rfl, rfl, rfl, rfl, rfl, fun _ _ => rfl⟩

/-- Claim C9: after any run of `k` completed `push_back` calls on a freshly
constructed container, over `std::allocator` or over a default-constructed
`MyAllocator` of any block capacity, `size()` is `k`, `empty()` holds exactly
when `k = 0`, and `size_` equals the length of `elements_`. The system
allocator is assumed to hand out non-null `w`-bit addresses that are not in
use, which is what keeps the `size_t` counter from wrapping. -/
theorem C9_size_counts_push_backs {sizeofT : Nat} {α : Type} (w : Nat) (sys : SysAlloc)
    (hfresh : SysFresh sys) (hrange : SysInRange w sys)
    (al : Allocator sizeofT) (hal : al.pooled = []) (wd : World α) (vs : List α)
    (r : MyContainer sizeofT × World α)
    (hrun : MyContainer.pushAll w sys vs (MyContainer.new al) wd = some r) :
    r.1.size = vs.length ∧ (r.1.empty = true ↔ vs.length = 0) ∧
    r.1.size_ = r.1.elements_.length := by
  obtain ⟨c2, wd2⟩ := r
  have hown0 : Owned wd.heap ((MyContainer.new al).elements_ ++ (MyContainer.new al).alloc_.pooled) := by
    simp [MyContainer.new, hal, Owned]
  have hr0 : AddrsInRange w
      ((MyContainer.new al).elements_ ++ (MyContainer.new al).alloc_.pooled) := by
    simp [MyContainer.new, hal, AddrsInRange]
  obtain ⟨hown2, ptrs, hel2, -, hvals⟩ :=
    pushAll_owned w sys hfresh vs _ c2 wd wd2 hown0 hrun
  have hr2 := pushAll_inRange w sys hrange vs _ c2 wd wd2 hr0 hrun
  have hlen : c2.elements_.length = vs.length := by
    have := congrArg List.length hvals
    simp only [List.length_map] at this
    rw [hel2]
    simpa [MyContainer.new] using this
  have hbound := length_lt_of_nodup_inRange w _ hown2.1 hr2
  rw [List.length_append] at hbound
  have hsz : c2.size_ = vs.length := by
    have h0 : (MyContainer.new al).size_ < 2 ^ w := Nat.two_pow_pos w
    rw [pushAll_size w sys vs _ c2 wd wd2 h0 hrun]
    simp only [MyContainer.new, Nat.zero_add]
    exact Nat.mod_eq_of_lt (by omega)
  refine ⟨hsz, ?_, by rw [hsz, hlen]⟩
  simp [MyContainer.empty, hsz]

/-- Instance of C9: three values pushed into a `MyContainer<int, MyAllocator<int, 2>>`. -/
theorem C9_size_counts_push_backs_witness :
    (Option.map (fun r => (MyContainer.size r.1, MyContainer.empty r.1))
      (MyContainer.pushAll 64 (bumpSys 64) [(7 : Int), 8, 9]
        (MyContainer.new (Allocator.pool 2 (MyAllocator.default 4 2)))
        (⟨[], emptyMem Int⟩ : World Int))) = some (3, false) := by
  have hsome : ∃ r, MyContainer.pushAll 64 (bumpSys 64) [(7 : Int), 8, 9]
      (MyContainer.new (Allocator.pool 2 (MyAllocator.default 4 2)))
      (⟨[], emptyMem Int⟩ : World Int) = some r :=
    Option.isSome_iff_exists.mp (by decide)
  obtain ⟨r, hr⟩ := hsome
  have hthm := C9_size_counts_push_backs 64 (bumpSys 64) (bumpSys_fresh 64)
    (bumpSys_inRange 64) (Allocator.pool 2 (MyAllocator.default 4 2)) rfl
    (⟨[], emptyMem Int⟩ : World Int) [(7 : Int), 8, 9] r hr
  rw [hr]
  cases hem : MyContainer.empty r.1 with
  | true => exact absurd (hthm.2.1.mp hem) (by decide)
  | false => simp [hthm.1, hem]

/-- Claim C10: for values pushed in order into a fresh container, over
`std::allocator` or over a default-constructed `MyAllocator` of any capacity,
`print()` writes each value followed by a space, in the order pushed, and then
a newline; further `push_back` calls keep the stored addresses in place and
their values unchanged, so the earlier values are printed first again. The
system allocator is assumed not to hand out an address that is still in use. -/
theorem C10_print_in_push_order {sizeofT : Nat} {α : Type} (w : Nat) (sys : SysAlloc)
    (hfresh : SysFresh sys) (al : Allocator sizeofT) (hal : al.pooled = [])
    (render : α → String) (wd : World α) (vs ws : List α) (out : String)
    (r1 r2 : MyContainer sizeofT × World α)
    (hrun : MyContainer.pushAll w sys vs (MyContainer.new al) wd = some r1)
    (hmore : MyContainer.pushAll w sys ws r1.1 r1.2 = some r2) :
    MyContainer.print render r1.1 r1.2.mem out = Result.ok (out ++ printed render vs) ∧
    (∃ ptrs : List Addr, r2.1.elements_ = r1.1.elements_ ++ ptrs) ∧
    (∀ q ∈ r1.1.elements_, r2.2.mem q = r1.2.mem q) ∧
    MyContainer.print render r2.1 r2.2.mem out =
      Result.ok (out ++ printed render (vs ++ ws)) := by
  obtain ⟨c1, wd1⟩ := r1
  obtain ⟨c2, wd2⟩ := r2
  have hown0 : Owned wd.heap ((MyContainer.new al).elements_ ++ (MyContainer.new al).alloc_.pooled) := by
    simp [MyContainer.new, hal, Owned]
  obtain ⟨hown1, ptrs1, hel1, -, hvals1⟩ :=
    pushAll_owned w sys hfresh vs _ c1 wd wd1 hown0 hrun
  obtain ⟨-, ptrs2, hel2, hkeep, hvals2⟩ :=
    pushAll_owned w sys hfresh ws c1 c2 wd1 wd2 hown1 hmore
  have hv1 : c1.elements_.map wd1.mem = vs.map some := by
    rw [hel1]
    simpa [MyContainer.new] using hvals1
  have hv2 : c2.elements_.map wd2.mem = (vs ++ ws).map some := by
    rw [hel2, List.map_append, List.map_append, hvals2, ← hv1]
    congr 1
    exact List.map_congr_left hkeep
  exact ⟨print_eq render c1 wd1.mem vs out hv1, ⟨ptrs2, hel2⟩, hkeep,
    print_eq render c2 wd2.mem (vs ++ ws) out hv2⟩

/-- Instance of C10: the values 0..9 pushed into `MyContainer<int>` and into
`MyContainer<int, MyAllocator<int, 10>>` are printed as `0 1 2 3 4 5 6 7 8 9 `
followed by a newline. -/
theorem C10_print_in_push_order_witness :
    (Option.map (fun r => MyContainer.print renderInt r.1 r.2.mem "")
      (MyContainer.pushAll 64 (bumpSys 64) [(0 : Int), 1, 2, 3, 4, 5, 6, 7, 8, 9]
        (MyContainer.new (Allocator.std : Allocator 4))
        (⟨[], emptyMem Int⟩ : World Int))) = some (Result.ok "0 1 2 3 4 5 6 7 8 9 \n") ∧
    (Option.map (fun r => MyContainer.print renderInt r.1 r.2.mem "")
      (MyContainer.pushAll 64 (bumpSys 64) [(0 : Int), 1, 2, 3, 4, 5, 6, 7, 8, 9]
        (MyContainer.new (Allocator.pool 10 (MyAllocator.default 4 10)))
        (⟨[], emptyMem Int⟩ : World Int))) = some (Result.ok "0 1 2 3 4 5 6 7 8 9 \n") := by
  have htext : "" ++ printed renderInt [(0 : Int), 1, 2, 3, 4, 5, 6, 7, 8, 9] =
      "0 1 2 3 4 5 6 7 8 9 \n" := by decide
  constructor
  · obtain ⟨r, hr⟩ : ∃ r, MyContainer.pushAll 64 (bumpSys 64)
        [(0 : Int), 1, 2, 3, 4, 5, 6, 7, 8, 9]
        (MyContainer.new (Allocator.std : Allocator 4))
        (⟨[], emptyMem Int⟩ : World Int) = some r :=
      Option.isSome_iff_exists.mp (by decide)
    have hthm := C10_print_in_push_order 64 (bumpSys 64) (bumpSys_fresh 64)
      (Allocator.std : Allocator 4) rfl renderInt (⟨[], emptyMem Int⟩ : World Int)
      [(0 : Int), 1, 2, 3, 4, 5, 6, 7, 8, 9] [] "" r r hr rfl
    rw [hr, Option.map_some', hthm.1, htext]
  · obtain ⟨r, hr⟩ : ∃ r, MyContainer.pushAll 64 (bumpSys 64)
        [(0 : Int), 1, 2, 3, 4, 5, 6, 7, 8, 9]
        (MyContainer.new (Allocator.pool 10 (MyAllocator.default 4 10)))
        (⟨[], emptyMem Int⟩ : World Int) = some r :=
      Option.isSome_iff_exists.mp (by decide)
    have hthm := C10_print_in_push_order 64 (bumpSys 64) (bumpSys_fresh 64)
      (Allocator.pool 10 (MyAllocator.default 4 10)) rfl renderInt
      (⟨[], emptyMem Int⟩ : World Int)
      [(0 : Int), 1, 2, 3, 4, 5, 6, 7, 8, 9] [] "" r r hr rfl
    rw [hr, Option.map_some', hthm.1, htext]

/-- Claim C12: for every key `k` in 0..9, `factorial(k)` returns the
mathematical `k!` without leaving the range of a 32-bit `int`, and the map
filled with `k -> factorial(k)` for `k = 0..9` lists, in ascending key order,
the pairs (0,1), (1,1), (2,2), (3,6), (4,24), (5,120), (6,720), (7,5040),
(8,40320), (9,362880). -/
theorem C12_factorial_table :
    (∀ k ∈ List.range 10, factorial (k : Int) = Result.ok ((Nat.factorial k : Nat) : Int)) ∧
    mainMap = Result.ok [(0, 1), (1, 1), (2, 2), (3, 6), (4, 24), (5, 120), (6, 720),
      (7, 5040), (8, 40320), (9, 362880)] := by
  decide

/-! ## All outcomes of `allocate` -/

theorem expandLoop_false_inv {sizeofT BlockSize : Nat} (sys : SysAlloc) :
    ∀ (k : Nat) (a a1 : MyAllocator sizeofT BlockSize) (h h1 : Heap),
      MyAllocator.expandLoop sys k a h = (false, a1, h1) →
      ∃ ps : List Addr, ps.length < k ∧ Answers sys sizeofT h ps ∧
        sys (h ++ chunkEvents sizeofT ps) sizeofT = none ∧
        a1.free_blocks = a.free_blocks ++ ps ∧
        h1 = h ++ chunkEvents sizeofT ps ++ [SysEvent.new sizeofT none]
  | 0, a, a1, h, h1, hrun => by
    simp [MyAllocator.expandLoop] at hrun
  | k + 1, a, a1, h, h1, hrun => by
    simp only [MyAllocator.expandLoop, opNew] at hrun
    cases hp : sys h sizeofT with
    | none =>
      rw [hp] at hrun
      simp only [Prod.mk.injEq, true_and] at hrun
      obtain ⟨rfl, rfl⟩ := hrun
      exact ⟨[], Nat.succ_pos k, trivial, by simpa [chunkEvents] using hp, by simp,
        by simp [chunkEvents]⟩
    | some p =>
      rw [hp] at hrun
      obtain ⟨ps, hlen, hans, hfail, hfl, hh⟩ := expandLoop_false_inv sys k _ a1 _ h1 hrun
      refine ⟨p :: ps, by simpa using hlen, ⟨hp, hans⟩, ?_, ?_, ?_⟩
      · simpa [chunkEvents] using hfail
      · simpa using hfl
      · simpa [chunkEvents] using hh

theorem allocate_small_empty_cases {sizeofT BlockSize : Nat} (w : Nat) (sys : SysAlloc)
    (a : MyAllocator sizeofT BlockSize) (h : Heap) (n : Nat)
    (hn : n ≤ BlockSize) (hfl : a.free_blocks = []) :
    (∃ ps : List Addr, ps.length < BlockSize ∧ Answers sys sizeofT h ps ∧
      sys (h ++ chunkEvents sizeofT ps) sizeofT = none ∧
      MyAllocator.allocate w sys a h n =
        (Result.bad_alloc, ⟨ps⟩, h ++ chunkEvents sizeofT ps ++ [SysEvent.new sizeofT none])) ∨
    (∃ (qs : List Addr) (p : Addr), (qs ++ [p]).length = BlockSize ∧
      Answers sys sizeofT h (qs ++ [p]) ∧
      MyAllocator.allocate w sys a h n =
        (Result.ok p, ⟨qs⟩, h ++ chunkEvents sizeofT (qs ++ [p]))) ∨
    (BlockSize = 0 ∧ MyAllocator.allocate w sys a h n = (Result.undefined, a, h)) := by
  rw [allocate_small_empty w sys a h n hn hfl]
  unfold MyAllocator.expand
  rcases hex : MyAllocator.expandLoop sys BlockSize a h with ⟨ok, a2, h2⟩
  cases ok with
  | false =>
    obtain ⟨ps, hlen, hans, hfail, hfl2, hh2⟩ :=
      expandLoop_false_inv sys BlockSize a a2 h h2 hex
    rw [hfl, List.nil_append] at hfl2
    refine Or.inl ⟨ps, hlen, hans, hfail, ?_⟩
    cases a2
    simp only at hfl2
    simp [hfl2, hh2]
  | true =>
    obtain ⟨ps, hlen, hans, hfl2, hh2⟩ := expandLoop_true_inv sys BlockSize a a2 h h2 hex
    rw [hfl, List.nil_append] at hfl2
    rcases List.eq_nil_or_concat ps with hnil | ⟨qs, q, hps⟩
    · right
      right
      subst hnil
      have hB : BlockSize = 0 := by simpa using hlen.symm
      refine ⟨hB, ?_⟩
      cases a
      cases a2
      simp only at hfl hfl2
      simp [hfl, hfl2, hh2, chunkEvents]
    · right
      left
      subst hps
      simp only [List.concat_eq_append] at hlen hans hh2 hfl2
      refine ⟨qs, q, hlen, hans, ?_⟩
      simp [hfl2, hh2]

/-- Claim C15 evaluated on the code: two containers constructed from one
`MyAllocator<int, 2>` whose free list is `[1]` each receive a copy of that
free list; after one `push_back` on each, both hold the address 1, and the
value 7 stored by the first container has been overwritten with 8. -/
theorem C15_containers_from_one_allocator_share_a_block :
    sharedSource.1.free_blocks = [1] ∧
    sharedFirst.1 = Result.ok () ∧ sharedFirst.2.1.elements_ = [1] ∧
    sharedSecond.1 = Result.ok () ∧ sharedSecond.2.1.elements_ = [1] ∧
    sharedFirst.2.2.mem 1 = some 7 ∧ sharedSecond.2.2.mem 1 = some 8 := by
  decide

/-- Claim C17 evaluated on the code: with `BlockSize = 0`, an empty free list
and `n = 0 ≤ BlockSize`, `expand()` pushes nothing and `allocate(0)` reaches
`back()` on an empty free list, which is undefined. -/
theorem C17_allocate_zero_with_zero_capacity_undefined :
    (0 ≤ 0) ∧
    MyAllocator.expand (bumpSys 64) (MyAllocator.default 4 0) [] =
      (true, MyAllocator.default 4 0, []) ∧
    MyAllocator.allocate 64 (bumpSys 64) (MyAllocator.default 4 0) [] 0 =
      (Result.undefined, MyAllocator.default 4 0, []) := by
  decide

/-- Claim C19 evaluated on the code: a fresh `MyAllocator<int, 10>` asked for
`n = 2` elements returns the chunk 10, which the log shows was obtained by a
request of `sizeof(int) = 4` bytes, fewer than the `2 * 4` bytes needed. -/
theorem C19_two_elements_get_one_element_block :
    (2 ≥ 1) ∧
    MyAllocator.allocate 64 (bumpSys 64) (MyAllocator.default 4 10) [] 2 =
      (Result.ok 10, ⟨[1, 2, 3, 4, 5, 6, 7, 8, 9]⟩,
        chunkEvents 4 [1, 2, 3, 4, 5, 6, 7, 8, 9, 10]) ∧
    SysEvent.new 4 (some 10) ∈ chunkEvents 4 [1, 2, 3, 4, 5, 6, 7, 8, 9, 10] ∧
    (∀ bytes, SysEvent.new bytes (some 10) ∈ chunkEvents 4 [1, 2, 3, 4, 5, 6, 7, 8, 9, 10] →
      bytes < 2 * 4) := by
  refine ⟨by decide, by decide, by decide, ?_⟩
  intro bytes hmem
  simp only [chunkEvents, List.mem_map] at hmem
  obtain ⟨q, -, hq⟩ := hmem
  simp only [SysEvent.new.injEq] at hq
  omega

/-- Claim C20 fails as stated: with a 64-bit `size_t` and `sizeof(T) = 4`, the
call `allocate(2^62)` on a `MyAllocator<int, 10>` passes `0` bytes to
`::operator new`, not the product `2^62 * 4`, and returns the address
obtained. -/
theorem C20_byte_count_wraps :
    (2 ^ 62 > 10) ∧
    MyAllocator.allocate 64 (bumpSys 64) (MyAllocator.default 4 10) [] (2 ^ 62) =
      (Result.ok 1, MyAllocator.default 4 10, [SysEvent.new 0 (some 1)]) ∧
    (0 ≠ 2 ^ 62 * 4) ∧
    ¬ (2 ^ 62 ≤ MyAllocator.max_size 64 (MyAllocator.default 4 10)) := by
  decide

/-- Claim C20 as amended: for `n > BlockSize`, `allocate(n)` always issues
the request, with the byte count `n * sizeof(T)` reduced modulo `2 ^ w` and
without comparing `n` to `max_size()`; for `sizeof(T) ≥ 1` that byte count
equals the mathematical product exactly when `n ≤ max_size()`. -/
theorem C20_byte_count_exact_iff_within_max_size {sizeofT BlockSize : Nat} (w : Nat)
    (sys : SysAlloc) (a : MyAllocator sizeofT BlockSize) (h : Heap) (n : Nat)
    (hn : n > BlockSize) (hs : 1 ≤ sizeofT) :
    (MyAllocator.allocate w sys a h n).2.2 =
      h ++ [SysEvent.new ((n * sizeofT) % 2 ^ w) (sys h ((n * sizeofT) % 2 ^ w))] ∧
    ((n * sizeofT) % 2 ^ w = n * sizeofT ↔ n ≤ MyAllocator.max_size w a) := by
  constructor
  · rw [allocate_large w sys a h n hn]
  · have hmax : MyAllocator.max_size w a = (2 ^ w - 1) / sizeofT := by
      unfold MyAllocator.max_size
      exact Nat.min_eq_right (Nat.div_le_self _ _)
    have hpos : 0 < 2 ^ w := Nat.two_pow_pos w
    rw [hmax, Nat.le_div_iff_mul_le hs]
    constructor
    · intro heq
      have hlt : (n * sizeofT) % 2 ^ w < 2 ^ w := Nat.mod_lt _ hpos
      rw [heq] at hlt
      omega
    · intro hle
      exact Nat.mod_eq_of_lt (by omega)

/-- Instance of amended C20: 11 elements of 4 bytes on a `MyAllocator<int, 10>`
with a 64-bit `size_t`. -/
theorem C20_byte_count_exact_iff_within_max_size_witness :
    (11 > 10) ∧ (1 ≤ 4) ∧
    (MyAllocator.allocate 64 (bumpSys 64) (MyAllocator.default 4 10) [] 11).2.2 =
      [] ++ [SysEvent.new ((11 * 4) % 2 ^ 64) (bumpSys 64 [] ((11 * 4) % 2 ^ 64))] ∧
    ((11 * 4) % 2 ^ 64 = 11 * 4 ↔ 11 ≤ MyAllocator.max_size 64 (MyAllocator.default 4 10)) :=
  ⟨by decide, by decide,
   C20_byte_count_exact_iff_within_max_size 64 (bumpSys 64) (MyAllocator.default 4 10) [] 11
     (by decide) (by decide)⟩

theorem answers_not_live (sys : SysAlloc) (hfresh : SysFresh sys) (bytes : Nat) :
    ∀ (ps : List Addr) (h : Heap), Answers sys bytes h ps → ∀ q ∈ ps, q ∉ live h
  | [], _, _ => by simp
  | p :: ps, h, hans => by
    obtain ⟨hp, hrest⟩ := hans
    intro q hq
    rcases List.mem_cons.mp hq with rfl | hq
    · exact hfresh h bytes q hp
    · have ih := answers_not_live sys hfresh bytes ps _ hrest q hq
      rw [live_append_event] at ih
      intro hlive
      exact ih (List.mem_append_left _ hlive)

/-- Claim C16 fails as stated for `BlockSize = 0`: the allocator rebound from a
`MyAllocator<int, 0>` to an 8-byte element type has an empty free list, but its
first `allocate(1)` makes one direct request of 8 bytes and no refill of
`BlockSize = 0` chunks. -/
theorem C16_rebound_zero_capacity_makes_direct_request :
    (MyAllocator.convert 8 (MyAllocator.default 4 0)).free_blocks = [] ∧
    MyAllocator.allocate 64 (bumpSys 64) (MyAllocator.convert 8 (MyAllocator.default 4 0)) [] 1 =
      (Result.ok 1, ⟨[]⟩, [SysEvent.new 8 (some 1)]) ∧
    ¬ ∃ cs : List Addr, cs.length = 0 ∧ [SysEvent.new 8 (some 1)] = [] ++ chunkEvents 8 cs := by
  refine ⟨by decide, by decide, ?_⟩
  rintro ⟨cs, hlen, hcs⟩
  rw [List.length_eq_zero] at hlen
  subst hlen
  simp [chunkEvents] at hcs

/-- Claim C16 as amended: the allocator obtained from `a` by the converting
constructor has the block capacity of `a` and an empty free list, whatever the
free list of `a`. For `BlockSize ≥ 1` its first `allocate(1)` refills: when
the system answers `BlockSize` requests of `sizeof(U)` bytes, the call makes
exactly these requests and returns the last chunk; every call that returns an
address did so. If the system allocator never returns an outstanding address
and the blocks in the free list of `a` are outstanding, the address returned
is none of them. -/
theorem C16_rebound_allocator_starts_empty {sizeofT sizeofU BlockSize : Nat} (w : Nat)
    (sys : SysAlloc) (a : MyAllocator sizeofT BlockSize) (h : Heap) (hB : 1 ≤ BlockSize) :
    (MyAllocator.convert sizeofU a).free_blocks = [] ∧
    (∀ (qs : List Addr) (p : Addr), (qs ++ [p]).length = BlockSize →
      Answers sys sizeofU h (qs ++ [p]) →
      MyAllocator.allocate w sys (MyAllocator.convert sizeofU a) h 1 =
        (Result.ok p, ⟨qs⟩, h ++ chunkEvents sizeofU (qs ++ [p]))) ∧
    (∀ (p : Addr) (a1 : MyAllocator sizeofU BlockSize) (h1 : Heap),
      MyAllocator.allocate w sys (MyAllocator.convert sizeofU a) h 1 = (Result.ok p, a1, h1) →
      (∃ cs : List Addr, cs.length = BlockSize ∧ h1 = h ++ chunkEvents sizeofU cs) ∧
      (SysFresh sys → (∀ q ∈ a.free_blocks, q ∈ live h) → p ∉ a.free_blocks)) := by
  refine ⟨rfl, ?_, ?_⟩
  · intro qs p hlen hans
    rw [allocate_small_empty w sys (MyAllocator.convert sizeofU a) h 1 hB rfl]
    have hex := expandLoop_of_answers sys (qs ++ [p])
      (MyAllocator.convert sizeofU a : MyAllocator sizeofU BlockSize) h hans
    rw [hlen] at hex
    unfold MyAllocator.expand
    rw [hex]
    simp [MyAllocator.convert]
  · intro p a1 h1 hrun
    obtain ⟨hlen, hans, hh⟩ :=
      allocate_small_empty_ok_inv w sys (MyAllocator.convert sizeofU a) h 1 hB hB rfl p a1 h1 hrun
    refine ⟨⟨_, hlen, hh⟩, ?_⟩
    intro hfresh hlive hmem
    exact answers_not_live sys hfresh sizeofU _ h hans p
      (List.mem_append_right _ (List.mem_singleton_self p)) (hlive p hmem)

/-- Instance of amended C16: a `MyAllocator<int, 3>` holding `[7, 8]` is rebound
to an 8-byte element type; the first `allocate(1)` obtains the chunks 1, 2, 3
of 8 bytes each and returns 3. -/
theorem C16_rebound_allocator_starts_empty_witness :
    (1 ≤ 3) ∧
    (MyAllocator.convert 8 (⟨[7, 8]⟩ : MyAllocator 4 3)).free_blocks = [] ∧
    MyAllocator.allocate 64 (bumpSys 64) (MyAllocator.convert 8 (⟨[7, 8]⟩ : MyAllocator 4 3)) [] 1 =
      (Result.ok 3, ⟨[1, 2]⟩, [] ++ chunkEvents 8 ([1, 2] ++ [3])) :=
  ⟨by decide,
   (C16_rebound_allocator_starts_empty 64 (bumpSys 64) (⟨[7, 8]⟩ : MyAllocator 4 3) []
      (by decide)).1,
   (C16_rebound_allocator_starts_empty 64 (bumpSys 64) (⟨[7, 8]⟩ : MyAllocator 4 3) []
      (by decide)).2.1 [1, 2] 3 rfl (by simp [Answers, bumpSys, maxAddr, maxStep])⟩

/-! ## The destructor of the container -/

theorem newAddrs_append : ∀ (l1 l2 : Heap), newAddrs (l1 ++ l2) = newAddrs l1 ++ newAddrs l2
  | [], l2 => rfl
  | SysEvent.new _ (some p) :: l1, l2 => by simp [newAddrs, newAddrs_append l1 l2]
  | SysEvent.new _ none :: l1, l2 => by simp [newAddrs, newAddrs_append l1 l2]
  | SysEvent.delete _ :: l1, l2 => by simp [newAddrs, newAddrs_append l1 l2]

theorem newAddrs_chunkEvents (bytes : Nat) : ∀ ps : List Addr,
    newAddrs (chunkEvents bytes ps) = ps
  | [] => rfl
  | p :: ps => by
    have ih := newAddrs_chunkEvents bytes ps
    simp only [chunkEvents] at ih
    simp [chunkEvents, newAddrs, ih]

theorem step_allocate_large {sizeofT BlockSize : Nat} (w : Nat) (sys : SysAlloc) (sameN : Bool)
    (st st1 : Session sizeofT BlockSize) (n : Nat) (hn : n > BlockSize)
    (hstep : Session.step w sys sameN st (Call.allocate n) = some st1) :
    st1.alloc = st.alloc ∧ st1.refilled = st.refilled ∧
    (∃ ev : SysEvent, st1.heap = st.heap ++ [ev]) ∧
    (st1.handed = st.handed ∨ ∃ p, st1.handed = st.handed ++ [(p, n)]) := by
  simp only [Session.step, allocate_large w sys st.alloc st.heap n hn, if_pos hn,
    List.append_nil] at hstep
  cases hp : sys st.heap ((n * sizeofT) % 2 ^ w) with
  | none =>
    rw [hp] at hstep
    simp only [Option.some.injEq] at hstep
    subst hstep
    exact ⟨rfl, rfl, ⟨_, rfl⟩, Or.inl rfl⟩
  | some p =>
    rw [hp] at hstep
    simp only [Option.some.injEq] at hstep
    subst hstep
    exact ⟨rfl, rfl, ⟨_, rfl⟩, Or.inr ⟨p, rfl⟩⟩

theorem step_allocate_small {sizeofT BlockSize : Nat} (w : Nat) (sys : SysAlloc) (sameN : Bool)
    (st st1 : Session sizeofT BlockSize) (n : Nat) (hn : n ≤ BlockSize)
    (hstep : Session.step w sys sameN st (Call.allocate n) = some st1) :
    ∃ (ps : List Addr) (tail : Heap), Answers sys sizeofT st.heap ps ∧
      st1.heap = st.heap ++ chunkEvents sizeofT ps ++ tail ∧
      (tail = [] ∨ tail = [SysEvent.new sizeofT none]) ∧
      st1.refilled = st.refilled ++ ps ∧
      ((st1.alloc.free_blocks = st.alloc.free_blocks ++ ps ∧ st1.handed = st.handed) ∨
        ∃ q, st.alloc.free_blocks ++ ps = st1.alloc.free_blocks ++ [q] ∧
          st1.handed = st.handed ++ [(q, n)]) := by
  have hng : ¬ n > BlockSize := Nat.not_lt.mpr hn
  simp only [Session.step, if_neg hng] at hstep
  rcases List.eq_nil_or_concat st.alloc.free_blocks with hnil | ⟨qs, q, hqs⟩
  · rcases allocate_small_empty_cases w sys st.alloc st.heap n hn hnil with
      ⟨ps, -, hans, -, hrun⟩ | ⟨qs, p, -, hans, hrun⟩ | ⟨-, hrun⟩
    · rw [hrun] at hstep
      simp only [Option.some.injEq] at hstep
      subst hstep
      refine ⟨ps, [SysEvent.new sizeofT none], hans, rfl, Or.inr rfl, ?_, Or.inl ⟨?_, rfl⟩⟩
      · simp [List.append_assoc, newAddrs_append, newAddrs_chunkEvents, newAddrs]
      · simp [hnil]
    · rw [hrun] at hstep
      simp only [Option.some.injEq] at hstep
      subst hstep
      refine ⟨qs ++ [p], [], hans, by simp, Or.inl rfl, ?_, Or.inr ⟨p, ?_, rfl⟩⟩
      · simp [newAddrs_chunkEvents]
      · simp [hnil]
    · rw [hrun] at hstep
      simp at hstep
  · rw [List.concat_eq_append] at hqs
    rw [allocate_small_nonempty w sys st.alloc st.heap n hn qs q hqs] at hstep
    simp only [Option.some.injEq] at hstep
    subst hstep
    refine ⟨[], [], trivial, by simp [chunkEvents], Or.inl rfl, ?_, Or.inr ⟨q, ?_, rfl⟩⟩
    · simp [newAddrs]
    · simp [hqs]

theorem step_deallocate {sizeofT BlockSize : Nat} (w : Nat) (sys : SysAlloc) (sameN : Bool)
    (st st1 : Session sizeofT BlockSize) (p : Addr) (n : Nat)
    (hstep : Session.step w sys sameN st (Call.deallocate p n) = some st1) :
    giveBack sameN st.handed p n = some st1.handed ∧ st1.refilled = st.refilled ∧
    ((n > BlockSize ∧ st1.alloc = st.alloc ∧ st1.heap = st.heap ++ [SysEvent.delete p]) ∨
      (n ≤ BlockSize ∧ st1.alloc.free_blocks = st.alloc.free_blocks ++ [p] ∧
        st1.heap = st.heap)) := by
  simp only [Session.step] at hstep
  cases hg : giveBack sameN st.handed p n with
  | none => simp [hg] at hstep
  | some handed1 =>
    rw [hg] at hstep
    simp only [MyAllocator.deallocate, opDelete] at hstep
    by_cases hn : n > BlockSize
    · simp only [if_pos hn, Option.some.injEq] at hstep
      subst hstep
      exact ⟨rfl, rfl, Or.inl ⟨hn, rfl, rfl⟩⟩
    · simp only [if_neg hn, Option.some.injEq] at hstep
      subst hstep
      exact ⟨rfl, rfl, Or.inr ⟨Nat.not_lt.mp hn, rfl, rfl⟩⟩

theorem run_cons_inv {sizeofT BlockSize : Nat} (w : Nat) (sys : SysAlloc) (sameN : Bool)
    (c : Call) (cs : List Call) (st st2 : Session sizeofT BlockSize)
    (hrun : Session.run w sys sameN (c :: cs) st = some st2) :
    ∃ st1, Session.step w sys sameN st c = some st1 ∧
      Session.run w sys sameN cs st1 = some st2 := by
  simp only [Session.run] at hrun
  cases hs : Session.step w sys sameN st c with
  | none => simp [hs] at hrun
  | some st1 =>
    rw [hs] at hrun
    exact ⟨st1, rfl, hrun⟩

theorem giveBack_sameN_inv (handed handed1 : List (Addr × Nat)) (p : Addr) (n : Nat)
    (hg : giveBack true handed p n = some handed1) :
    (p, n) ∈ handed ∧ handed1 = handed.erase (p, n) := by
  simp only [giveBack, if_true] at hg
  by_cases hmem : (p, n) ∈ handed
  · rw [if_pos hmem] at hg
    simp only [Option.some.injEq] at hg
    exact ⟨hmem, hg.symm⟩
  · rw [if_neg hmem] at hg
    simp at hg

theorem step_pooled {sizeofT BlockSize : Nat} (w : Nat) (sys : SysAlloc) (h0 : Heap)
    (st st1 : Session sizeofT BlockSize) (c : Call) (hinv : Session.Pooled h0 st)
    (hstep : Session.step w sys true st c = some st1) : Session.Pooled h0 st1 := by
  obtain ⟨hfree, hhand, evs, hheap, hevs⟩ := hinv
  cases c with
  | allocate n =>
    by_cases hn : n > BlockSize
    · obtain ⟨hal, href, ⟨ev, hh⟩, hhd⟩ := step_allocate_large w sys true st st1 n hn hstep
      refine ⟨?_, ?_, evs ++ [ev], ?_, ?_⟩
      · rw [hal, href]
        exact hfree
      · intro e he hle
        rw [href]
        rcases hhd with hhd | ⟨p, hhd⟩
        · rw [hhd] at he
          exact hhand e he hle
        · rw [hhd] at he
          rcases List.mem_append.mp he with he | he
          · exact hhand e he hle
          · rw [List.mem_singleton] at he
            subst he
            exact absurd hle (Nat.not_le.mpr hn)
      · rw [hh, hheap, List.append_assoc]
      · intro p hp
        rw [href] at hp
        exact List.mem_append_left _ (hevs p hp)
    · have hn1 : n ≤ BlockSize := Nat.not_lt.mp hn
      obtain ⟨ps, tail, -, hh, -, href, hcase⟩ :=
        step_allocate_small w sys true st st1 n hn1 hstep
      have hsub : ∀ p ∈ st.alloc.free_blocks ++ ps, p ∈ st1.refilled := by
        intro p hp
        rw [href]
        rcases List.mem_append.mp hp with hp | hp
        · exact List.mem_append_left _ (hfree p hp)
        · exact List.mem_append_right _ hp
      refine ⟨?_, ?_, evs ++ chunkEvents sizeofT ps ++ tail, ?_, ?_⟩
      · intro p hp
        rcases hcase with ⟨hfl, -⟩ | ⟨q, hfl, -⟩
        · rw [hfl] at hp
          exact hsub p hp
        · exact hsub p (hfl ▸ List.mem_append_left _ hp)
      · intro e he hle
        rcases hcase with ⟨-, hhd⟩ | ⟨q, hfl, hhd⟩
        · rw [hhd] at he
          rw [href]
          exact List.mem_append_left _ (hhand e he hle)
        · rw [hhd] at he
          rcases List.mem_append.mp he with he | he
          · rw [href]
            exact List.mem_append_left _ (hhand e he hle)
          · rw [List.mem_singleton] at he
            subst he
            exact hsub q (hfl ▸ List.mem_append_right _ (List.mem_singleton_self q))
      · rw [hh, hheap]
        simp only [List.append_assoc]
      · intro p hp
        rw [href] at hp
        rcases List.mem_append.mp hp with hp | hp
        · exact List.mem_append_left _ (List.mem_append_left _ (hevs p hp))
        · refine List.mem_append_left _ (List.mem_append_right _ ?_)
          exact List.mem_map.mpr ⟨p, hp, rfl⟩
  | deallocate p n =>
    obtain ⟨hg, href, hcase⟩ := step_deallocate w sys true st st1 p n hstep
    obtain ⟨hmem, hhd⟩ := giveBack_sameN_inv st.handed st1.handed p n hg
    have hhand1 : ∀ e ∈ st1.handed, e.2 ≤ BlockSize → e.1 ∈ st1.refilled := by
      intro e he hle
      rw [hhd] at he
      rw [href]
      exact hhand e (List.mem_of_mem_erase he) hle
    rcases hcase with ⟨-, hal, hh⟩ | ⟨hn, hfl, hh⟩
    · refine ⟨?_, hhand1, evs ++ [SysEvent.delete p], ?_, ?_⟩
      · rw [hal, href]
        exact hfree
      · rw [hh, hheap, List.append_assoc]
      · intro q hq
        rw [href] at hq
        exact List.mem_append_left _ (hevs q hq)
    · refine ⟨?_, hhand1, evs, ?_, ?_⟩
      · intro q hq
        rw [hfl] at hq
        rw [href]
        rcases List.mem_append.mp hq with hq | hq
        · exact hfree q hq
        · rw [List.mem_singleton] at hq
          subst hq
          exact hhand (q, n) hmem hn
      · rw [hh, hheap]
      · intro q hq
        rw [href] at hq
        exact hevs q hq

theorem run_pooled {sizeofT BlockSize : Nat} (w : Nat) (sys : SysAlloc) (h0 : Heap) :
    ∀ (cs : List Call) (st st2 : Session sizeofT BlockSize), Session.Pooled h0 st →
      Session.run w sys true cs st = some st2 → Session.Pooled h0 st2
  | [], st, st2, hinv, hrun => by
    simp only [Session.run, Option.some.injEq] at hrun
    exact hrun ▸ hinv
  | c :: cs, st, st2, hinv, hrun => by
    obtain ⟨st1, hstep, hrest⟩ := run_cons_inv w sys true c cs st st2 hrun
    exact run_pooled w sys h0 cs st1 st2 (step_pooled w sys h0 st st1 c hinv hstep) hrest

/-- Claim C14: in every state reached from a freshly constructed allocator by
`allocate` and `deallocate` calls, where each `deallocate(p, n)` gives back an
address returned by an earlier `allocate(n)` with the same `n` and not given
back since, every address in the free list is a chunk obtained by a refill,
answered by the system allocator to a request of exactly `sizeof(T)` bytes
made during these calls. -/
theorem C14_free_list_holds_refill_chunks {sizeofT BlockSize : Nat} (w : Nat) (sys : SysAlloc)
    (h0 : Heap) (cs : List Call) (st : Session sizeofT BlockSize)
    (hrun : Session.run w sys true cs (Session.fresh sizeofT BlockSize h0) = some st) :
    ∀ p ∈ st.alloc.free_blocks,
      p ∈ st.refilled ∧ SysEvent.new sizeofT (some p) ∈ st.heap.drop h0.length := by
  have hinit : Session.Pooled h0 (Session.fresh sizeofT BlockSize h0) := by
    refine ⟨?_, ?_, [], ?_, ?_⟩ <;> simp [Session.fresh, MyAllocator.default]
  obtain ⟨hfree, -, evs, hheap, hevs⟩ := run_pooled w sys h0 cs _ st hinit hrun
  intro p hp
  refine ⟨hfree p hp, ?_⟩
  rw [hheap, List.drop_left]
  exact hevs p (hfree p hp)

/-- Instance of C14: on a `MyAllocator<int, 2>`, one element, three elements
and one element are allocated, then the first and the three-element block are
given back; the free list holds the refill chunk 2. -/
theorem C14_free_list_holds_refill_chunks_witness :
    (2 : Addr) ∈ [1, 2] ∧
    SysEvent.new 4 (some 2) ∈
      ([SysEvent.new 4 (some 1), SysEvent.new 4 (some 2), SysEvent.new 12 (some 3),
        SysEvent.delete 3] : Heap).drop ([] : Heap).length :=
  C14_free_list_holds_refill_chunks 64 (bumpSys 64) []
    [Call.allocate 1, Call.allocate 3, Call.allocate 1, Call.deallocate 2 1,
      Call.deallocate 3 3]
    (⟨⟨[2]⟩, [SysEvent.new 4 (some 1), SysEvent.new 4 (some 2), SysEvent.new 12 (some 3),
        SysEvent.delete 3], [(1, 1)], [1, 2]⟩ : Session 4 2)
    (by decide) 2 (by decide)

theorem refused_append (e1 e2 : Heap) : Refused (e1 ++ e2) ↔ Refused e1 ∨ Refused e2 := by
  simp only [Refused, List.mem_append]
  constructor
  · rintro ⟨b, hb | hb⟩
    · exact Or.inl ⟨b, hb⟩
    · exact Or.inr ⟨b, hb⟩
  · rintro (⟨b, hb⟩ | ⟨b, hb⟩)
    · exact ⟨b, Or.inl hb⟩
    · exact ⟨b, Or.inr hb⟩

theorem vec_push_back_log (pol : VecPolicy) (sys : SysAlloc) (v : Vec) (h : Heap) (x : Addr) :
    ∃ evs : Heap, (v.push_back pol sys h x).2 = h ++ evs ∧
      ((v.push_back pol sys h x).1 = none ↔ Refused evs) ∧
      (∀ v1, (v.push_back pol sys h x).1 = some v1 → v1.items = v.items ++ [x]) ∧
      (v.items.length < v.capacity → evs = []) ∧
      (v.capacity ≤ v.items.length →
        ((v.push_back pol sys h x).1 = none ↔
          sys h (pol.grow v.capacity * pol.sizeofPtr) = none)) := by
  unfold Vec.push_back opNew opDelete
  by_cases hroom : v.items.length < v.capacity
  · rw [if_pos hroom]
    refine ⟨[], by simp, by simp [Refused], ?_, fun _ => rfl, fun hfull => ?_⟩
    · intro v1 hv1
      simp only [Option.some.injEq] at hv1
      rw [← hv1]
    · omega
  · rw [if_neg hroom]
    cases hp : sys h (pol.grow v.capacity * pol.sizeofPtr) with
    | none =>
      refine ⟨[SysEvent.new (pol.grow v.capacity * pol.sizeofPtr) none], rfl, ?_, ?_,
        fun hr => absurd hr hroom, fun _ => by simp⟩
      · simp only [true_iff]
        exact ⟨_, List.mem_singleton_self _⟩
      · intro v1 hv1
        simp at hv1
    | some b =>
      by_cases hcap : v.capacity = 0
      · refine ⟨[SysEvent.new (pol.grow v.capacity * pol.sizeofPtr) (some b)], by simp [hcap],
          by simp [Refused], ?_, fun hr => absurd hr hroom, fun _ => by simp⟩
        intro v1 hv1
        simp only [Option.some.injEq] at hv1
        rw [← hv1]
      · refine ⟨[SysEvent.new (pol.grow v.capacity * pol.sizeofPtr) (some b),
            SysEvent.delete v.buffer], by simp [hcap], by simp [Refused], ?_,
          fun hr => absurd hr hroom, fun _ => by simp⟩
        intro v1 hv1
        simp only [Option.some.injEq] at hv1
        rw [← hv1]

theorem storage_expandLoop_log {sizeofT BlockSize : Nat} (pol : VecPolicy) (sys : SysAlloc) :
    ∀ (k : Nat) (a : WithStorage.MyAllocator sizeofT BlockSize) (h : Heap),
      ∃ evs : Heap, (WithStorage.MyAllocator.expandLoop pol sys k a h).2.2 = h ++ evs ∧
        ((WithStorage.MyAllocator.expandLoop pol sys k a h).1 = false ↔ Refused evs) ∧
        ((WithStorage.MyAllocator.expandLoop pol sys k a h).1 = true →
          ∃ ps : List Addr, ps.length = k ∧
            (WithStorage.MyAllocator.expandLoop pol sys k a h).2.1.free_blocks.items =
              a.free_blocks.items ++ ps)
  | 0, a, h => ⟨[], by simp [WithStorage.MyAllocator.expandLoop],
      by simp [WithStorage.MyAllocator.expandLoop, Refused],
      fun _ => ⟨[], rfl, by simp [WithStorage.MyAllocator.expandLoop]⟩⟩
  | k + 1, a, h => by
    simp only [WithStorage.MyAllocator.expandLoop, opNew]
    cases hp : sys h sizeofT with
    | none =>
      refine ⟨[SysEvent.new sizeofT none], rfl, ?_, fun hf => by simp at hf⟩
      simp only [true_iff]
      exact ⟨_, List.mem_singleton_self _⟩
    | some p =>
      simp only
      obtain ⟨evs1, hlog1, hfail1, hitems1, -, -⟩ :=
        vec_push_back_log pol sys a.free_blocks (h ++ [SysEvent.new sizeofT (some p)]) p
      rcases hpb : a.free_blocks.push_back pol sys (h ++ [SysEvent.new sizeofT (some p)]) p with
        ⟨res, h2⟩
      rw [hpb] at hlog1 hfail1 hitems1
      simp only at hlog1 hfail1 hitems1
      cases res with
      | none =>
        refine ⟨[SysEvent.new sizeofT (some p)] ++ evs1, by simp [hlog1], ?_,
          fun hf => by simp at hf⟩
        simp only [true_iff]
        rw [refused_append]
        exact Or.inr (hfail1.mp rfl)
      | some v =>
        have hnot1 : ¬ Refused evs1 := fun hr => by simpa using hfail1.mpr hr
        obtain ⟨evs2, hlog2, hfail2, hitems2⟩ := storage_expandLoop_log pol sys k
          (⟨v⟩ : WithStorage.MyAllocator sizeofT BlockSize) h2
        refine ⟨[SysEvent.new sizeofT (some p)] ++ evs1 ++ evs2, ?_, ?_, ?_⟩
        · rw [hlog2, hlog1]
          simp
        · rw [hfail2, refused_append, refused_append]
          constructor
          · exact fun hr => Or.inr hr
          · rintro ((hr | hr) | hr)
            · simp [Refused] at hr
            · exact absurd hr hnot1
            · exact hr
        · intro htrue
          obtain ⟨ps, hlen, hit⟩ := hitems2 htrue
          refine ⟨p :: ps, by simp [hlen], ?_⟩
          rw [hit, hitems1 v rfl]
          simp

theorem storage_allocate_log {sizeofT BlockSize : Nat} (pol : VecPolicy) (w : Nat)
    (sys : SysAlloc) (a : WithStorage.MyAllocator sizeofT BlockSize) (h : Heap) (n : Nat) :
    ∃ evs : Heap, (WithStorage.MyAllocator.allocate pol w sys a h n).2.2 = h ++ evs ∧
      ((WithStorage.MyAllocator.allocate pol w sys a h n).1 = Exit.bad_alloc ↔ Refused evs) ∧
      (1 ≤ BlockSize ∨ n > BlockSize ∨ a.free_blocks.items ≠ [] →
        (WithStorage.MyAllocator.allocate pol w sys a h n).1 = Exit.bad_alloc ∨
          ∃ q, (WithStorage.MyAllocator.allocate pol w sys a h n).1 = Exit.ok q) ∧
      (n ≤ BlockSize → a.free_blocks.items ≠ [] →
        evs = [] ∧ ∃ q, (WithStorage.MyAllocator.allocate pol w sys a h n).1 = Exit.ok q) := by
  unfold WithStorage.MyAllocator.allocate
  by_cases hn : n > BlockSize
  · rw [if_pos hn]
    simp only [opNew]
    cases hp : sys h ((n * sizeofT) % 2 ^ w) with
    | none =>
      refine ⟨[SysEvent.new ((n * sizeofT) % 2 ^ w) none], rfl, ?_, fun _ => Or.inl rfl,
        fun hle => absurd hn (Nat.not_lt.mpr hle)⟩
      simp only [true_iff]
      exact ⟨_, List.mem_singleton_self _⟩
    | some q =>
      refine ⟨[SysEvent.new ((n * sizeofT) % 2 ^ w) (some q)], rfl, by simp [Refused],
        fun _ => Or.inr ⟨q, rfl⟩, fun hle => absurd hn (Nat.not_lt.mpr hle)⟩
  · rw [if_neg hn]
    rcases List.eq_nil_or_concat a.free_blocks.items with hnil | ⟨qs, q, hqs⟩
    · simp only [hnil, List.isEmpty_nil, if_true]
      unfold WithStorage.MyAllocator.expand
      obtain ⟨evs, hlog, hfail, hitems⟩ := storage_expandLoop_log pol sys BlockSize a h
      rcases hex : WithStorage.MyAllocator.expandLoop pol sys BlockSize a h with ⟨flag, a1, h1⟩
      rw [hex] at hlog hfail hitems
      simp only at hlog hfail hitems
      cases flag with
      | false =>
        refine ⟨evs, hlog, ?_, fun _ => Or.inl rfl, fun _ hne => absurd rfl hne⟩
        simp only [true_iff]
        exact hfail.mp rfl
      | true =>
        have hnot : ¬ Refused evs := fun hr => by simpa using hfail.mpr hr
        obtain ⟨ps, hlen, hit⟩ := hitems rfl
        rw [hnil, List.nil_append] at hit
        rcases List.eq_nil_or_concat ps with hps | ⟨rs, r, hps⟩
        · subst hps
          have hB : BlockSize = 0 := by simpa using hlen.symm
          simp only [hit, List.getLast?_nil]
          refine ⟨evs, hlog, ?_, ?_, fun _ hne => absurd rfl hne⟩
          · constructor
            · intro hbad
              simp at hbad
            · exact fun hr => absurd hr hnot
          · rintro (hd | hd | hd)
            · omega
            · exact absurd hd hn
            · exact absurd rfl hd
        · subst hps
          simp only [hit, List.concat_eq_append, List.getLast?_append, List.getLast?_singleton,
            Option.or_some]
          refine ⟨evs, hlog, ?_, fun _ => Or.inr ⟨r, rfl⟩, fun _ hne => absurd rfl hne⟩
          constructor
          · intro hbad
            simp at hbad
          · exact fun hr => absurd hr hnot
    · rw [List.concat_eq_append] at hqs
      have hemp : a.free_blocks.items.isEmpty = false := by simp [hqs]
      have hlast : a.free_blocks.items.getLast? = some q := by simp [hqs]
      simp only [hemp, Bool.false_eq_true, if_false, hlast]
      refine ⟨[], by simp, by simp [Refused], fun _ => Or.inr ⟨q, rfl⟩,
        fun _ _ => ⟨rfl, q, rfl⟩⟩

theorem storage_deallocate_log {sizeofT BlockSize : Nat} (pol : VecPolicy) (sys : SysAlloc)
    (a : WithStorage.MyAllocator sizeofT BlockSize) (h : Heap) (p : Addr) (n : Nat) :
    ∃ evs : Heap, (WithStorage.MyAllocator.deallocate pol sys a h p n).2.2 = h ++ evs ∧
      ((WithStorage.MyAllocator.deallocate pol sys a h p n).1 = Exit.terminate ↔ Refused evs) ∧
      ((WithStorage.MyAllocator.deallocate pol sys a h p n).1 = Exit.terminate ∨
        (WithStorage.MyAllocator.deallocate pol sys a h p n).1 = Exit.ok ()) ∧
      (n > BlockSize →
        (WithStorage.MyAllocator.deallocate pol sys a h p n).1 = Exit.ok () ∧
        evs = [SysEvent.delete p]) ∧
      (n ≤ BlockSize → a.free_blocks.items.length < a.free_blocks.capacity →
        (WithStorage.MyAllocator.deallocate pol sys a h p n).1 = Exit.ok () ∧ evs = []) ∧
      (n ≤ BlockSize → a.free_blocks.capacity ≤ a.free_blocks.items.length →
        ((WithStorage.MyAllocator.deallocate pol sys a h p n).1 = Exit.terminate ↔
          sys h (pol.grow a.free_blocks.capacity * pol.sizeofPtr) = none)) ∧
      ((WithStorage.MyAllocator.deallocate pol sys a h p n).1 = Exit.ok () →
        (WithStorage.MyAllocator.deallocate pol sys a h p n).2.1.free_blocks.items =
          if n > BlockSize then a.free_blocks.items else a.free_blocks.items ++ [p]) := by
  unfold WithStorage.MyAllocator.deallocate
  by_cases hn : n > BlockSize
  · rw [if_pos hn]
    refine ⟨[SysEvent.delete p], rfl, by simp [Refused], Or.inr rfl, fun _ => ⟨rfl, rfl⟩,
      fun hle => absurd hn (Nat.not_lt.mpr hle), fun hle => absurd hn (Nat.not_lt.mpr hle),
      fun _ => ?_⟩
    rw [if_pos hn]
  · simp only [if_neg hn]
    obtain ⟨evs, hlog, hfail, hitems, hroom, hfull⟩ :=
      vec_push_back_log pol sys a.free_blocks h p
    rcases hpb : a.free_blocks.push_back pol sys h p with ⟨res, h1⟩
    rw [hpb] at hlog hfail hitems hfull
    simp only at hlog hfail hitems hfull
    cases res with
    | none =>
      have hr : Refused evs := hfail.mp rfl
      refine ⟨evs, hlog, by simpa using hr, Or.inl rfl, fun hgt => absurd hgt hn, ?_, ?_,
        fun hok => by simp at hok⟩
      · intro _ hlt
        have hnil := hroom hlt
        rw [hnil] at hr
        simp [Refused] at hr
      · intro _ hcap
        simpa using (hfull hcap).mp rfl
    | some v =>
      have hnot : ¬ Refused evs := fun hr => by simpa using hfail.mpr hr
      refine ⟨evs, hlog, ?_, Or.inr rfl, fun hgt => absurd hgt hn,
        fun _ hlt => ⟨rfl, hroom hlt⟩, ?_, fun _ => hitems v rfl⟩
      · constructor
        · intro hbad
          simp at hbad
        · exact fun hr => absurd hr hnot
      · intro _ hcap
        constructor
        · intro hbad
          simp at hbad
        · intro hnone
          have := (hfull hcap).mpr hnone
          simp at this

/-- Claim C13 fails as stated: `deallocate(42, 1)` on a freshly constructed
`MyAllocator<int, 10>` has to grow the empty `free_blocks`; when the system
refuses the 8 bytes requested, the exception cannot leave the `noexcept`
function and the call ends in `std::terminate`. And `allocate(0)` on a
`MyAllocator<int, 0>` returns no address although it made no request at all. -/
theorem C13_deallocate_terminates_when_growth_refused :
    WithStorage.MyAllocator.deallocate doubling exhausted
        (WithStorage.MyAllocator.default 4 10) [] 42 1 =
      (Exit.terminate, WithStorage.MyAllocator.default 4 10, [SysEvent.new 8 none]) ∧
    WithStorage.MyAllocator.allocate doubling 64 (bumpSys 64)
        (WithStorage.MyAllocator.default 4 0) [] 0 =
      (Exit.undefined, WithStorage.MyAllocator.default 4 0, []) := by
  decide

/-- Claim C13 as amended, with the storage of `free_blocks` modelled.
`allocate(n)` ends with `bad_alloc` exactly when one of the system-allocator
requests made during the call (direct block, refill chunk, storage of the free
list) was refused; when `BlockSize ≥ 1`, `n > BlockSize` or the free list is
non-empty it otherwise returns an address; with `n ≤ BlockSize` and a
non-empty free list it makes no system call and returns an address.
`deallocate(p, n)` either returns or ends in `std::terminate`, the latter
exactly when a request it made was refused: never for `n > BlockSize`, never
while the storage of the free list has room, and with full storage exactly
when the system refuses the larger buffer; when it returns, the free list is
unchanged (`n > BlockSize`) or extended by `p`. The members `max_size`
(`sizeof(T) ≥ 1`), `operator==` and `operator!=` return normally. -/
theorem C13_failures_come_from_refused_requests {sizeofT sizeofU BlockSize : Nat}
    (pol : VecPolicy) (w : Nat) (sys : SysAlloc)
    (a : WithStorage.MyAllocator sizeofT BlockSize)
    (b : WithStorage.MyAllocator sizeofU BlockSize) (h : Heap) (n : Nat) (p : Addr) :
    (∃ evs : Heap, (WithStorage.MyAllocator.allocate pol w sys a h n).2.2 = h ++ evs ∧
      ((WithStorage.MyAllocator.allocate pol w sys a h n).1 = Exit.bad_alloc ↔ Refused evs) ∧
      (1 ≤ BlockSize ∨ n > BlockSize ∨ a.free_blocks.items ≠ [] →
        (WithStorage.MyAllocator.allocate pol w sys a h n).1 = Exit.bad_alloc ∨
          ∃ q, (WithStorage.MyAllocator.allocate pol w sys a h n).1 = Exit.ok q) ∧
      (n ≤ BlockSize → a.free_blocks.items ≠ [] →
        evs = [] ∧ ∃ q, (WithStorage.MyAllocator.allocate pol w sys a h n).1 = Exit.ok q)) ∧
    (∃ evs : Heap, (WithStorage.MyAllocator.deallocate pol sys a h p n).2.2 = h ++ evs ∧
      ((WithStorage.MyAllocator.deallocate pol sys a h p n).1 = Exit.terminate ↔ Refused evs) ∧
      ((WithStorage.MyAllocator.deallocate pol sys a h p n).1 = Exit.terminate ∨
        (WithStorage.MyAllocator.deallocate pol sys a h p n).1 = Exit.ok ()) ∧
      (n > BlockSize →
        (WithStorage.MyAllocator.deallocate pol sys a h p n).1 = Exit.ok () ∧
        evs = [SysEvent.delete p]) ∧
      (n ≤ BlockSize → a.free_blocks.items.length < a.free_blocks.capacity →
        (WithStorage.MyAllocator.deallocate pol sys a h p n).1 = Exit.ok () ∧ evs = []) ∧
      (n ≤ BlockSize → a.free_blocks.capacity ≤ a.free_blocks.items.length →
        ((WithStorage.MyAllocator.deallocate pol sys a h p n).1 = Exit.terminate ↔
          sys h (pol.grow a.free_blocks.capacity * pol.sizeofPtr) = none)) ∧
      ((WithStorage.MyAllocator.deallocate pol sys a h p n).1 = Exit.ok () →
        (WithStorage.MyAllocator.deallocate pol sys a h p n).2.1.free_blocks.items =
          if n > BlockSize then a.free_blocks.items else a.free_blocks.items ++ [p])) ∧
    (1 ≤ sizeofT →
      WithStorage.MyAllocator.max_size w a =
        Exit.ok (min (2 ^ w - 1) ((2 ^ w - 1) / sizeofT))) ∧
    WithStorage.MyAllocator.eq a b = Exit.ok true ∧
    WithStorage.MyAllocator.ne a b = Exit.ok false := by
  refine ⟨storage_allocate_log pol w sys a h n, storage_deallocate_log pol sys a h p n,
    ?_, rfl, rfl⟩
  intro hs
  unfold WithStorage.MyAllocator.max_size
  rw [if_neg (by omega)]

/-- Instance of amended C13: on a `MyAllocator<int, 10>` whose free list has
room for a second entry, `deallocate(42, 1)` returns even when the system
refuses every request, and so does `deallocate(42, 11)`. -/
theorem C13_failures_come_from_refused_requests_witness :
    (WithStorage.MyAllocator.deallocate doubling exhausted
      (⟨⟨[7], 2, 100⟩⟩ : WithStorage.MyAllocator 4 10) [] 42 1).1 = Exit.ok () ∧
    (WithStorage.MyAllocator.deallocate doubling exhausted
      (⟨⟨[7], 2, 100⟩⟩ : WithStorage.MyAllocator 4 10) [] 42 11).1 = Exit.ok () := by
  constructor
  · obtain ⟨evs, -, -, -, -, hroom, -⟩ :=
      (C13_failures_come_from_refused_requests doubling 64 exhausted
        (⟨⟨[7], 2, 100⟩⟩ : WithStorage.MyAllocator 4 10)
        (⟨⟨[7], 2, 100⟩⟩ : WithStorage.MyAllocator 4 10) [] 1 42).2.1
    exact (hroom (by decide) (by decide)).1
  · obtain ⟨evs, -, -, -, hlarge, -⟩ :=
      (C13_failures_come_from_refused_requests doubling 64 exhausted
        (⟨⟨[7], 2, 100⟩⟩ : WithStorage.MyAllocator 4 10)
        (⟨⟨[7], 2, 100⟩⟩ : WithStorage.MyAllocator 4 10) [] 11 42).2.1
    exact (hlarge (by decide)).1

end Lab4
